import Mathlib

/-!
Verification of the DXF comparison core (`tests/compare_dxf.py`).

The development shallowly embeds the shape-reconstruction and comparison
pipeline: raw primitives, the union-find shape fuser, the shape descriptor
builder, the classifier and the comparator/scorer.  Coordinates are modelled
as rationals; Python `round(x, n)` (round-half-to-even on the scaled value)
is modelled by `rndHE`.  File reading and the DXF entity extraction
(`ezdxf`) are the external CAD-reader boundary: the pipeline is embedded
from the `raw_shapes` list (one record per extracted entity) onward.
-/

namespace CompareDxf

/-- A planar point. -/
abbrev Pt := ℚ × ℚ

/-- Round-half-to-even to the nearest integer (Python `round`). -/
def rndHE (q : ℚ) : ℤ :=
  let f := ⌊q⌋
  if q - f < 1 / 2 then f
  else if (1 : ℚ) / 2 < q - f then f + 1
  else if f % 2 = 0 then f else f + 1

/-- Python `round(q, d)` for `d ≥ 0` decimal digits. -/
def roundDec (d : ℕ) (q : ℚ) : ℚ := (rndHE (q * 10 ^ d) : ℚ) / 10 ^ d

/-- `round(q, 2)`. -/
def round2 (q : ℚ) : ℚ := roundDec 2 q

/-- `round(q, 1)`. -/
def round1 (q : ℚ) : ℚ := roundDec 1 q

/-- Python `round(q, -2)`: round to the nearest multiple of 100. -/
def roundHundred (q : ℚ) : ℚ := (rndHE (q / 100) : ℚ) * 100

/-- `pt_key`: quantize a coordinate pair to 2 decimals (endpoint key). -/
def pt_key (x y : ℚ) : Pt := (round2 x, round2 y)

/-- One entry of `raw_shapes`: a raw primitive after entity extraction. -/
structure RawShape where
  type : String
  pts : List Pt
  bbox_pts : List Pt
  bulges : List ℚ
  layer : String
  deriving DecidableEq, Repr

/-- Placeholder used for out-of-range list indexing (never hit in-range). -/
def dummyShape : RawShape := ⟨"", [], [], [], ""⟩

/-!
### Union-find (`class UnionFind`)

The Python `parent` dict (with `setdefault(i, i)`) is modelled as a total
function `ℕ → ℕ` whose value on an absent key is the key itself.  The
recursive `find` with path compression is given explicit fuel; the fuser
always passes fuel `raw.length + 1`, which is proved sufficient below.
-/

/-- `UnionFind.find` with path compression, fuelled. -/
def find (fuel : ℕ) (f : ℕ → ℕ) (i : ℕ) : (ℕ → ℕ) × ℕ :=
  match fuel with
  | 0 => (f, i)
  | fuel + 1 =>
    if f i = i then (f, i)
    else
      let fr := find fuel f (f i)
      (Function.update fr.1 i fr.2, fr.2)

/-- `UnionFind.union`: link the two roots (if distinct). -/
def union (fuel : ℕ) (f : ℕ → ℕ) (i j : ℕ) : ℕ → ℕ :=
  let fi := find fuel f i
  let fj := find fuel fi.1 j
  if fi.2 = fj.2 then fj.1 else Function.update fj.1 fi.2 fj.2

/-- State threaded through the fusion loop: union-find parents and the
`point_map` from quantized endpoint keys to the latest owner index. -/
structure FuseState where
  parent : ℕ → ℕ
  point_map : Pt → Option ℕ

/-- Initial fuse state: empty parent dict, empty point map. -/
def initState : FuseState := ⟨fun i => i, fun _ => none⟩

/-- One execution of `for p in (p1, p2): if p in point_map: union(i, point_map[p]); point_map[p] = i`
for a single key `p`. -/
def processKey (fuel : ℕ) (st : FuseState) (i : ℕ) (p : Pt) : FuseState :=
  let f1 :=
    match st.point_map p with
    | some j => union fuel st.parent i j
    | none => st.parent
  ⟨f1, Function.update st.point_map p (some i)⟩

/-- The quantized first and last point of a primitive (empty if it has no
points). -/
def shapeKeys (s : RawShape) : List Pt :=
  match s.pts with
  | [] => []
  | p :: rest =>
    [pt_key p.1 p.2,
      pt_key ((p :: rest).getLast (List.cons_ne_nil p rest)).1
        ((p :: rest).getLast (List.cons_ne_nil p rest)).2]

/-- One iteration of the fusion loop body for primitive `i` (primitives with
no points are skipped). -/
def fuseStep (fuel : ℕ) (st : FuseState) (i : ℕ) (s : RawShape) : FuseState :=
  match shapeKeys s with
  | [] => st
  | p1 :: rest =>
    let p2 := rest.getD 0 p1
    processKey fuel (processKey fuel st i p1) i p2

/-- `for i, s in enumerate(raw_shapes): ...` -/
def fuseAux (fuel : ℕ) (st : FuseState) (i : ℕ) : List RawShape → FuseState
  | [] => st
  | s :: rest => fuseAux fuel (fuseStep fuel st i s) (i + 1) rest

/-- The fuse state after the whole endpoint-linking loop. -/
def fuseState (raw : List RawShape) : FuseState :=
  fuseAux (raw.length + 1) initState 0 raw

/-- `groups[root].append(i)`, keeping first-encounter order of roots. -/
def addToGroup (acc : List (ℕ × List ℕ)) (r i : ℕ) : List (ℕ × List ℕ) :=
  match acc with
  | [] => [(r, [i])]
  | (k, l) :: rest => if k = r then (k, l ++ [i]) :: rest else (k, l) :: addToGroup rest r i

/-- `for i in range(len(raw_shapes)): groups[uf.find(i)].append(i)`, with the
remaining iteration count as the recursion measure. -/
def groupAux (fuel : ℕ) (f : ℕ → ℕ) (acc : List (ℕ × List ℕ)) (i : ℕ) :
    ℕ → ((ℕ → ℕ) × List (ℕ × List ℕ))
  | 0 => (f, acc)
  | k + 1 =>
    let fr := find fuel f i
    groupAux fuel fr.1 (addToGroup acc fr.2 i) (i + 1) k

/-- The fused groups, as lists of primitive indices (insertion order of the
`defaultdict`). -/
def fuseGroups (raw : List RawShape) : List (List ℕ) :=
  ((groupAux (raw.length + 1) (fuseState raw).parent [] 0 raw.length).2).map Prod.snd

/-- A shape descriptor (one entry of the `shapes` list of `parse_shapes`). -/
structure Shape where
  type : String
  layer : String
  width : ℚ
  height : ℚ
  min_x : ℚ
  min_y : ℚ
  max_x : ℚ
  max_y : ℚ
  cx : ℚ
  cy : ℚ
  has_bulge : Bool
  area : ℚ
  num_pts : ℕ
  deriving DecidableEq, Repr

/-- Reduce one fused group to a shape descriptor (lines 116-150); `none`
models the `continue` on an empty bounding-point union.  `all_xs` and
`all_ys` are the two coordinate projections of the concatenated
`bbox_pts`. -/
def buildDescriptor (sub : List RawShape) : Option Shape :=
  match sub with
  | [] => none
  | s0 :: _ =>
    let allPts := (sub.map (fun s => s.bbox_pts)).flatten
    let total_pts := (sub.map (fun s => s.pts.length)).sum
    let has_bulge := sub.any fun s => s.bulges.any fun b => decide ((1 : ℚ) / 1000 < |b|)
    match allPts with
    | [] => none
    | q :: qs =>
      let mnx := (qs.map Prod.fst).foldl min q.1
      let mxx := (qs.map Prod.fst).foldl max q.1
      let mny := (qs.map Prod.snd).foldl min q.2
      let mxy := (qs.map Prod.snd).foldl max q.2
      let w := mxx - mnx
      let h := mxy - mny
      some
        { type := if 1 < sub.length then "POLYLINE" else s0.type
          layer := s0.layer
          width := round2 w
          height := round2 h
          min_x := round2 mnx
          min_y := round2 mny
          max_x := round2 mxx
          max_y := round2 mxy
          cx := round2 ((mnx + mxx) / 2)
          cy := round2 ((mny + mxy) / 2)
          has_bulge := has_bulge
          area := round1 (w * h)
          num_pts := total_pts }

/-- `parse_shapes`, from the extracted `raw_shapes` list onward. -/
def parse_shapes (raw : List RawShape) : List Shape :=
  (fuseGroups raw).filterMap fun g => buildDescriptor (g.map fun i => raw.getD i dummyShape)

/-- Sheet predicate (width > 1000 and height > 2000). -/
def isSheet (s : Shape) : Bool := decide (1000 < s.width ∧ 2000 < s.height)

/-- Slot predicate (one dimension near 12, bulge present, small area). -/
def isSlot (s : Shape) : Bool :=
  decide (|s.width - 12| < 5 ∨ |s.height - 12| < 5) && s.has_bulge && decide (s.area < 10000)

/-- The classifier output (`classify_shapes` result dict). -/
structure Classified where
  sheets : List Shape
  rybs : List Shape
  slots : List Shape
  total : ℕ
  deriving DecidableEq, Repr

/-- `classify_shapes`.  Membership of a descriptor in the `slots`/`sheets`
lists (tested via object identity `id(s)` in the source, with every list
element a distinct freshly-built dict) is equivalent to the corresponding
predicate holding of it. -/
def classify_shapes (shapes : List Shape) : Classified :=
  let sheets := shapes.filter isSheet
  let slots := shapes.filter isSlot
  let rybs := shapes.filter fun s =>
    !isSlot s && !isSheet s && decide (100 < s.area) && decide (20 < s.width) &&
      decide (20 < s.height)
  ⟨sheets, rybs, slots, shapes.length⟩

/-- `compute_bounding_box_overlap`. -/
def compute_bounding_box_overlap (shapes_a shapes_b : List Shape) : ℚ :=
  match shapes_a, shapes_b with
  | [], _ => 0
  | _ :: _, [] => 0
  | a0 :: arest, b0 :: brest =>
    let a_min_x := (arest.map Shape.min_x).foldl min a0.min_x
    let a_max_x := (arest.map Shape.max_x).foldl max a0.max_x
    let a_min_y := (arest.map Shape.min_y).foldl min a0.min_y
    let a_max_y := (arest.map Shape.max_y).foldl max a0.max_y
    let b_min_x := (brest.map Shape.min_x).foldl min b0.min_x
    let b_max_x := (brest.map Shape.max_x).foldl max b0.max_x
    let b_min_y := (brest.map Shape.min_y).foldl min b0.min_y
    let b_max_y := (brest.map Shape.max_y).foldl max b0.max_y
    let ox1 := max a_min_x b_min_x
    let ox2 := min a_max_x b_max_x
    let oy1 := max a_min_y b_min_y
    let oy2 := min a_max_y b_max_y
    if ox2 ≤ ox1 ∨ oy2 ≤ oy1 then 0
    else
      let overlap := (ox2 - ox1) * (oy2 - oy1)
      let area_a := (a_max_x - a_min_x) * (a_max_y - a_min_y)
      let area_b := (b_max_x - b_min_x) * (b_max_y - b_min_y)
      let u := area_a + area_b - overlap
      round1 (overlap / max u 1 * 100)

/-- The `metrics` record of `compare_dxfs` (file-path strings omitted). -/
structure Metrics where
  shape_count_generated : ℕ
  shape_count_reference : ℕ
  shape_count_match : Bool
  ryb_count_generated : ℕ
  ryb_count_reference : ℕ
  ryb_count_match : Bool
  slot_count_generated : ℕ
  slot_count_reference : ℕ
  slot_count_match : Bool
  sheet_count_generated : ℕ
  sheet_count_reference : ℕ
  has_backplane_generated : Bool
  has_backplane_reference : Bool
  is_backplane_organic_generated : Bool
  is_backplane_organic_reference : Bool
  rybs_with_tabs_generated : ℕ
  rybs_with_tabs_reference : ℕ
  bounding_box_overlap_rybs : ℚ
  bounding_box_overlap_slots : ℚ
  size_distribution_match : ℚ
  slot_width_consistency : Bool
  overall_score : ℚ
  deriving DecidableEq, Repr

/-- Score term `has_slots` (line 281). -/
def score_has_slots (m : Metrics) : ℚ := if 0 < m.slot_count_generated then 15 else 0

/-- Score term `has_rybs` (line 282). -/
def score_has_rybs (m : Metrics) : ℚ := if 0 < m.ryb_count_generated then 15 else 0

/-- Score term `has_backplane` (line 283). -/
def score_backplane (m : Metrics) : ℚ := if m.has_backplane_generated then 10 else 0

/-- Score term `organic_bp_score` (line 286). -/
def score_organic (m : Metrics) : ℚ := if m.is_backplane_organic_generated then 15 else 0

/-- Score term `tabs_score` (line 287). -/
def score_tabs (m : Metrics) : ℚ :=
  if min m.ryb_count_reference 10 ≤ m.rybs_with_tabs_generated then 15 else 0

/-- Score term `ryb_count_score` (line 289). -/
def score_ryb_count (m : Metrics) : ℚ :=
  min 15 (15 * ((min m.ryb_count_generated m.ryb_count_reference : ℕ) : ℚ) /
    ((max m.ryb_count_reference 1 : ℕ) : ℚ))

/-- Score term `slot_score` (line 290). -/
def score_slot_count (m : Metrics) : ℚ :=
  min 15 (15 * ((min m.slot_count_generated m.slot_count_reference : ℕ) : ℚ) /
    ((max m.slot_count_reference 1 : ℕ) : ℚ))

/-- The slot-width consistency check `abs(min(w, h) - 12) < 3`. -/
def slotConsistent (s : Shape) : Bool := decide (|min s.width s.height - 12| < 3)

/-- Lines 223-293 of `compare_dxfs`: build the metrics from the two
classified sets (the source sorts the size lists before converting them to
sets; sorting does not change the resulting set and is omitted). -/
def compare_classified (g r : Classified) : Metrics :=
  let gen_sizes := g.rybs.map fun s => roundHundred s.area
  let ref_sizes := r.rybs.map fun s => roundHundred s.area
  let sdm : ℚ :=
    if gen_sizes ≠ [] ∧ ref_sizes ≠ [] then
      let common := (gen_sizes.toFinset ∩ ref_sizes.toFinset).card
      let total := (gen_sizes.toFinset ∪ ref_sizes.toFinset).card
      round1 ((common : ℚ) / ((max total 1 : ℕ) : ℚ) * 100)
    else 0
  let swc : Bool :=
    if g.slots ≠ [] ∧ r.slots ≠ [] then
      g.slots.all slotConsistent && r.slots.all slotConsistent
    else false
  let m : Metrics :=
    { shape_count_generated := g.total
      shape_count_reference := r.total
      shape_count_match := decide (g.total = r.total)
      ryb_count_generated := g.rybs.length
      ryb_count_reference := r.rybs.length
      ryb_count_match := decide (g.rybs.length = r.rybs.length)
      slot_count_generated := g.slots.length
      slot_count_reference := r.slots.length
      slot_count_match := decide (g.slots.length = r.slots.length)
      sheet_count_generated := g.sheets.length
      sheet_count_reference := r.sheets.length
      has_backplane_generated := g.rybs.any fun s => decide (500000 < s.area)
      has_backplane_reference := r.rybs.any fun s => decide (500000 < s.area)
      is_backplane_organic_generated :=
        g.rybs.any fun s => decide (500000 < s.area) && decide (50 < s.num_pts)
      is_backplane_organic_reference :=
        r.rybs.any fun s => decide (500000 < s.area) && decide (50 < s.num_pts)
      rybs_with_tabs_generated :=
        g.rybs.countP fun s => decide (s.area < 500000) && decide (8 ≤ s.num_pts)
      rybs_with_tabs_reference :=
        r.rybs.countP fun s => decide (s.area < 500000) && decide (8 ≤ s.num_pts)
      bounding_box_overlap_rybs := compute_bounding_box_overlap g.rybs r.rybs
      bounding_box_overlap_slots := compute_bounding_box_overlap g.slots r.slots
      size_distribution_match := sdm
      slot_width_consistency := swc
      overall_score := 0 }
  { m with
    overall_score :=
      round1 (score_has_slots m + score_has_rybs m + score_backplane m + score_organic m +
        score_tabs m + score_ryb_count m + score_slot_count m) }

/-- `compare_dxfs`, from the two extracted entity lists onward. -/
def compare_dxfs (gen_raw ref_raw : List RawShape) : Metrics :=
  compare_classified (classify_shapes (parse_shapes gen_raw))
    (classify_shapes (parse_shapes ref_raw))

/-!
### C2 specification-level definitions

`linkRel` is the claim's relation: two primitives are linked when they share
a quantized first-or-last point.  `sameGroup` is membership in a common
fused group of the computed output.
-/

/-- The quantized first/last endpoint keys of the primitive at index `a`. -/
def keysOf (raw : List RawShape) (a : ℕ) : List Pt := shapeKeys (raw.getD a dummyShape)

/-- Primitives at indices `a` and `b` share a quantized first-or-last
point. -/
def linkRelUpto (raw : List RawShape) (t : ℕ) (a b : ℕ) : Prop :=
  a < t ∧ b < t ∧ ∃ p ∈ keysOf raw a, p ∈ keysOf raw b

/-- The claim's shared-endpoint relation on primitive indices. -/
def linkRel (raw : List RawShape) (a b : ℕ) : Prop := linkRelUpto raw raw.length a b

/-- Indices `a` and `b` end up in one and the same fused group. -/
def sameGroup (raw : List RawShape) (a b : ℕ) : Prop :=
  ∃ g ∈ fuseGroups raw, a ∈ g ∧ b ∈ g

/-- The set of indices fused with `a`. -/
def groupSet (raw : List RawShape) (a : ℕ) : Set ℕ := {b | sameGroup raw a b}

/-- The set of member primitives of the group of index `a`. -/
def componentShapes (raw : List RawShape) (a : ℕ) : Set RawShape :=
  {s | ∃ b, sameGroup raw a b ∧ s = raw.getD b dummyShape}

/-- The fused partition, as a set of sets of primitives. -/
def partitionShapes (raw : List RawShape) : Set (Set RawShape) :=
  {S | ∃ a, a < raw.length ∧ S = componentShapes raw a}

/-- The input list reordered by a permutation of its index set. -/
def permuteList (raw : List RawShape) (σ : Equiv.Perm (Fin raw.length)) : List RawShape :=
  List.ofFn fun k => raw.get (σ k)

/-- A permutation of `Fin n` extended to all of `ℕ` by the identity. -/
def extendPerm (n : ℕ) (σ : Equiv.Perm (Fin n)) : ℕ → ℕ :=
  fun a => if h : a < n then (σ ⟨a, h⟩ : ℕ) else a

/-!
### Union-find correctness layer

The parent function is analysed through `Reaches` (iterating the parent
pointer hits a given fixpoint).  `Dom n` confines the non-trivial pointers
to `[0, n)`; `Bnd n` bounds every chain by the number of non-root nodes,
which both guarantees that fuel `n + 1` suffices for `find` and that every
node has a root.
-/

/-- `r` is its own parent. -/
def IsRoot (f : ℕ → ℕ) (r : ℕ) : Prop := f r = r

/-- Iterating the parent map from `x` reaches the fixpoint `r`. -/
def Reaches (f : ℕ → ℕ) (x r : ℕ) : Prop := IsRoot f r ∧ ∃ k, f^[k] x = r

/-- `x` and `y` reach a common root. -/
def sameRoot (f : ℕ → ℕ) (x y : ℕ) : Prop := ∃ r, Reaches f x r ∧ Reaches f y r

/-- The non-root nodes below `n`. -/
def NF (n : ℕ) (f : ℕ → ℕ) : Finset ℕ := (Finset.range n).filter fun a => f a ≠ a

/-- All non-trivial parent pointers stay inside `[0, n)`. -/
def Dom (n : ℕ) (f : ℕ → ℕ) : Prop := ∀ a, f a ≠ a → a < n ∧ f a < n

/-- Every chain reaches a root within `(NF n f).card` steps. -/
def Bnd (n : ℕ) (f : ℕ → ℕ) : Prop := ∀ a, ∃ k ≤ (NF n f).card, IsRoot f (f^[k] a)

/-- `Q` extended by the links created when index `t` claims key `q`: `t` is
joined to every earlier index owning `q`. -/
def addKeyRel (raw : List RawShape) (t : ℕ) (q : Pt) (Q : ℕ → ℕ → Prop) (a b : ℕ) : Prop :=
  Q a b ∨ (a = t ∧ b < t ∧ q ∈ keysOf raw b) ∨ (b = t ∧ a < t ∧ q ∈ keysOf raw a)

/-- The fusion-loop invariant after the first `t` primitives have been
processed. -/
def FuseInv (raw : List RawShape) (t : ℕ) (st : FuseState) : Prop :=
  Dom raw.length st.parent ∧ Bnd raw.length st.parent ∧
  (∀ p a, st.point_map p = some a → a < t ∧ p ∈ keysOf raw a) ∧
  (∀ p, st.point_map p = none → ∀ a, a < t → p ∉ keysOf raw a) ∧
  (∀ a b, sameRoot st.parent a b ↔ Relation.EqvGen (linkRelUpto raw t) a b)

/-!
### Claim-specific definitions and concrete inputs
-/

/-- The enclosing bounding box `(min_x, min_y, max_x, max_y)` of a descriptor
list (`none` on empty input). -/
def setBox (l : List Shape) : Option (ℚ × ℚ × ℚ × ℚ) :=
  match l with
  | [] => none
  | s0 :: rest =>
    some ((rest.map Shape.min_x).foldl min s0.min_x,
      (rest.map Shape.min_y).foldl min s0.min_y,
      (rest.map Shape.max_x).foldl max s0.max_x,
      (rest.map Shape.max_y).foldl max s0.max_y)

/-- The metric exactly as the C4 claim words it: standard IoU of the two
enclosing boxes (intersection area divided by union area) as a percentage
rounded to 1 decimal; 0 on empty input or when the boxes do not overlap on
both axes. -/
def claimIoU (a b : List Shape) : ℚ :=
  match setBox a with
  | none => 0
  | some (ax1, ay1, ax2, ay2) =>
    match setBox b with
    | none => 0
    | some (bx1, by1, bx2, by2) =>
    let ix1 := max ax1 bx1
    let ix2 := min ax2 bx2
    let iy1 := max ay1 by1
    let iy2 := min ay2 by2
    if ix2 ≤ ix1 ∨ iy2 ≤ iy1 then 0
    else
      let inter := (ix2 - ix1) * (iy2 - iy1)
      let uni := (ax2 - ax1) * (ay2 - ay1) + (bx2 - bx1) * (by2 - by1) - inter
      round1 (inter / uni * 100)

/-- The amended C4 metric: as `claimIoU` but with the union-area denominator
floored at 1, matching the source's division guard. -/
def claimIoUFloored (a b : List Shape) : ℚ :=
  match setBox a with
  | none => 0
  | some (ax1, ay1, ax2, ay2) =>
    match setBox b with
    | none => 0
    | some (bx1, by1, bx2, by2) =>
    let ix1 := max ax1 bx1
    let ix2 := min ax2 bx2
    let iy1 := max ay1 by1
    let iy2 := min ay2 by2
    if ix2 ≤ ix1 ∨ iy2 ≤ iy1 then 0
    else
      let inter := (ix2 - ix1) * (iy2 - iy1)
      let uni := (ax2 - ax1) * (ay2 - ay1) + (bx2 - bx1) * (by2 - by1) - inter
      round1 (inter / max uni 1 * 100)

/-- A descriptor whose enclosing box has area 1/4 (< 1). -/
def dTiny : Shape :=
  ⟨"LINE", "0", 1/2, 1/2, 0, 0, 1/2, 1/2, 1/4, 1/4, false, 1/4, 2⟩

/-- Rounding down to the nearest multiple of 100, as the C5 claim words
it. -/
def floorHundred (q : ℚ) : ℚ := 100 * (⌊q / 100⌋ : ℚ)

/-- The metric exactly as the C5 claim words it: floor each part area to a
100-bucket, take the two sets of distinct buckets and return their Jaccard
similarity as a raw percentage (0 if either side has no parts). -/
def claimSizeDist (g r : Classified) : ℚ :=
  if g.rybs = [] ∨ r.rybs = [] then 0
  else
    let A := (g.rybs.map fun s => floorHundred s.area).toFinset
    let B := (r.rybs.map fun s => floorHundred s.area).toFinset
    ((A ∩ B).card : ℚ) / ((A ∪ B).card : ℚ) * 100

/-- The amended C5 metric: buckets are the areas rounded to the *nearest*
multiple of 100 (ties to even), and the Jaccard percentage is rounded to 1
decimal with the denominator floored at 1. -/
def amendedSizeDist (g r : Classified) : ℚ :=
  if g.rybs = [] ∨ r.rybs = [] then 0
  else
    let A := g.rybs.toFinset.image fun s => roundHundred s.area
    let B := r.rybs.toFinset.image fun s => roundHundred s.area
    round1 (((A ∩ B).card : ℚ) / ((max (A ∪ B).card 1 : ℕ) : ℚ) * 100)

/-- A part-classified descriptor with area 460.2 (nearest bucket 500, floor
bucket 400). -/
def c5gen : Shape :=
  ⟨"LWPOLYLINE", "0", 23, 20.01, 0, 0, 23, 20.01, 11.5, 10, false, 460.2, 4⟩

/-- A part-classified descriptor with area 441.1 (nearest bucket 400, floor
bucket 400). -/
def c5ref : Shape :=
  ⟨"LWPOLYLINE", "0", 22, 20.05, 0, 0, 22, 20.05, 11, 10.03, false, 441.1, 4⟩

/-- A 30×30 square polyline (classifies as a part). -/
def c6sq : RawShape :=
  ⟨"LWPOLYLINE", [(0, 0), (30, 0), (30, 30), (0, 30)], [(0, 0), (30, 0), (30, 30), (0, 30)],
    [0, 0, 0, 0], "0"⟩

/-- A 12×30 curved polyline (classifies as a slot). -/
def c6slot : RawShape :=
  ⟨"LWPOLYLINE", [(100, 0), (112, 0), (112, 30), (100, 30)],
    [(100, 0), (112, 0), (112, 30), (100, 30)], [1, 0, 0, 0], "0"⟩

/-- First of two chained lines. -/
def c7line1 : RawShape := ⟨"LINE", [(0, 0), (10, 0)], [(0, 0), (10, 0)], [], "0"⟩

/-- Second line, sharing endpoint (10, 0) with the first. -/
def c7line2 : RawShape := ⟨"LINE", [(10, 0), (10, 10)], [(10, 0), (10, 10)], [], "0"⟩

/-- The descriptor of the single line `c7line1`. -/
def c7desc : Shape := ⟨"LINE", "0", 10, 0, 0, 0, 10, 0, 5, 0, false, 0, 2⟩

/-- Two primitives with no shared endpoints. -/
def c2a : RawShape := ⟨"LINE", [(0, 0), (10, 0)], [(0, 0), (10, 0)], [], "0"⟩

/-- Second primitive for the C2 witness, disjoint from the first. -/
def c2b : RawShape := ⟨"LINE", [(50, 50), (60, 50)], [(50, 50), (60, 50)], [], "0"⟩

/-!
### Rounding bounds
-/

theorem rndHE_nonneg {q : ℚ} (hq : 0 ≤ q) : 0 ≤ rndHE q := by
  have h0 : (0 : ℤ) ≤ ⌊q⌋ := Int.floor_nonneg.mpr hq
  unfold rndHE
  dsimp only
  split
  · exact h0
  · split
    · omega
    · split <;> omega

theorem rndHE_le_of_le {q : ℚ} {n : ℤ} (h : q ≤ (n : ℚ)) : rndHE q ≤ n := by
  have hf : ⌊q⌋ ≤ n := by
    have := Int.floor_le_floor h
    simpa using this
  unfold rndHE
  dsimp only
  split
  · exact hf
  · rename_i hr
    push_neg at hr
    have hfl : (⌊q⌋ : ℚ) + 1 / 2 ≤ q := by linarith
    have hcast : (⌊q⌋ : ℚ) < (n : ℚ) := by linarith
    have hfn : ⌊q⌋ < n := by exact_mod_cast hcast
    split
    · omega
    · split <;> omega

theorem round1_nonneg {q : ℚ} (hq : 0 ≤ q) : 0 ≤ round1 q := by
  have := rndHE_nonneg (q := q * 10 ^ 1) (by positivity)
  unfold round1 roundDec
  positivity

theorem round1_le_of_le {q : ℚ} {n : ℤ} (h : q ≤ (n : ℚ)) : round1 q ≤ (n : ℚ) := by
  have h10 : q * 10 ^ 1 ≤ ((10 * n : ℤ) : ℚ) := by push_cast; nlinarith
  have := rndHE_le_of_le h10
  have hc : (rndHE (q * 10 ^ 1) : ℚ) ≤ ((10 * n : ℤ) : ℚ) := by exact_mod_cast this
  unfold round1 roundDec
  rw [div_le_iff₀ (by norm_num : (0 : ℚ) < 10 ^ 1)]
  push_cast at hc ⊢
  linarith

/-!
### Bounds for the individual score terms
-/

theorem score_has_slots_mem (m : Metrics) :
    0 ≤ score_has_slots m ∧ score_has_slots m ≤ 15 := by
  unfold score_has_slots; split <;> norm_num

theorem score_has_rybs_mem (m : Metrics) :
    0 ≤ score_has_rybs m ∧ score_has_rybs m ≤ 15 := by
  unfold score_has_rybs; split <;> norm_num

theorem score_backplane_mem (m : Metrics) :
    0 ≤ score_backplane m ∧ score_backplane m ≤ 10 := by
  unfold score_backplane; split <;> norm_num

theorem score_organic_mem (m : Metrics) :
    0 ≤ score_organic m ∧ score_organic m ≤ 15 := by
  unfold score_organic; split <;> norm_num

theorem score_tabs_mem (m : Metrics) :
    0 ≤ score_tabs m ∧ score_tabs m ≤ 15 := by
  unfold score_tabs; split <;> norm_num

theorem score_ryb_count_mem (m : Metrics) :
    0 ≤ score_ryb_count m ∧ score_ryb_count m ≤ 15 := by
  unfold score_ryb_count
  refine ⟨le_min (by norm_num) (div_nonneg (by positivity) (by positivity)), min_le_left _ _⟩

theorem score_slot_count_mem (m : Metrics) :
    0 ≤ score_slot_count m ∧ score_slot_count m ≤ 15 := by
  unfold score_slot_count
  refine ⟨le_min (by norm_num) (div_nonneg (by positivity) (by positivity)), min_le_left _ _⟩

/-- The overall score is the rounded sum of the seven score terms over the
base metrics record. -/
theorem compare_classified_overall (g r : Classified) :
    ∃ m : Metrics, compare_classified g r =
      { m with
        overall_score :=
          round1 (score_has_slots m + score_has_rybs m + score_backplane m + score_organic m +
            score_tabs m + score_ryb_count m + score_slot_count m) } :=
  ⟨_, rfl⟩

/-!
### C1, C3, C9, C10, C8
-/

/-- C1: for every pair of classified sets, `overall_score` is the sum,
rounded to 1 decimal, of exactly seven terms: 15 if the generated slot count
is positive; 15 if the generated part count is positive; 10 if some
generated part has area > 500000; 15 if some generated part has
area > 500000 and point count > 50; 15 if the number of generated parts with
area < 500000 and at least 8 points reaches `min(reference part count, 10)`;
`min(15, 15·min(gen, ref)/max(ref, 1))` for the part counts; and the same
for the slot counts. -/
theorem c1_overall_score_formula (g r : Classified) :
    (compare_classified g r).overall_score =
      round1
        ((if 0 < g.slots.length then (15 : ℚ) else 0) +
          (if 0 < g.rybs.length then (15 : ℚ) else 0) +
          (if ∃ s ∈ g.rybs, 500000 < s.area then (10 : ℚ) else 0) +
          (if ∃ s ∈ g.rybs, 500000 < s.area ∧ 50 < s.num_pts then (15 : ℚ) else 0) +
          (if min r.rybs.length 10 ≤
              g.rybs.countP (fun s => decide (s.area < 500000 ∧ 8 ≤ s.num_pts)) then (15 : ℚ)
            else 0) +
          min 15 (15 * ((min g.rybs.length r.rybs.length : ℕ) : ℚ) /
            ((max r.rybs.length 1 : ℕ) : ℚ)) +
          min 15 (15 * ((min g.slots.length r.slots.length : ℕ) : ℚ) /
            ((max r.slots.length 1 : ℕ) : ℚ))) := by
  simp only [compare_classified, score_has_slots, score_has_rybs, score_backplane, score_organic,
    score_tabs, score_ryb_count, score_slot_count, List.any_eq_true, Bool.and_eq_true,
    decide_eq_true_eq, Bool.decide_and]

/-- C3: the classifier's three output lists are pairwise disjoint: a
descriptor in `sheets` is never in `slots`, and a descriptor in `rybs` is in
neither `sheets` nor `slots`. -/
theorem c3_classification_disjoint (shapes : List Shape) (s : Shape) :
    (s ∈ (classify_shapes shapes).sheets → s ∉ (classify_shapes shapes).slots) ∧
    (s ∈ (classify_shapes shapes).rybs →
      s ∉ (classify_shapes shapes).sheets ∧ s ∉ (classify_shapes shapes).slots) := by
  constructor
  · intro hsheet hslot
    simp only [classify_shapes, List.mem_filter] at hsheet hslot
    have hsh := hsheet.2
    have hsl := hslot.2
    simp only [isSheet, decide_eq_true_eq] at hsh
    simp only [isSlot, Bool.and_eq_true, decide_eq_true_eq] at hsl
    obtain ⟨⟨h12 | h12, -⟩, -⟩ := hsl
    · rw [abs_lt] at h12; linarith [hsh.1]
    · rw [abs_lt] at h12; linarith [hsh.2]
  · intro hryb
    simp only [classify_shapes, List.mem_filter, Bool.and_eq_true, Bool.not_eq_true'] at hryb
    obtain ⟨-, ⟨⟨⟨⟨hslot, hsheet⟩, -⟩, -⟩, -⟩⟩ := hryb
    constructor
    · simp only [classify_shapes, List.mem_filter]
      rintro ⟨-, h⟩
      rw [hsheet] at h
      cases h
    · simp only [classify_shapes, List.mem_filter]
      rintro ⟨-, h⟩
      rw [hslot] at h
      cases h

/-- Witness for C3 at a concrete input: a sheet-classified descriptor is not
slot-classified. -/
theorem c3_classification_disjoint_witness :
    (⟨"LWPOLYLINE", "0", 1250, 2500, 0, 0, 1250, 2500, 625, 1250, false, 3125000, 4⟩ : Shape) ∉
      (classify_shapes
        [⟨"LWPOLYLINE", "0", 1250, 2500, 0, 0, 1250, 2500, 625, 1250, false, 3125000, 4⟩]).slots :=
  (c3_classification_disjoint
      [⟨"LWPOLYLINE", "0", 1250, 2500, 0, 0, 1250, 2500, 625, 1250, false, 3125000, 4⟩]
      ⟨"LWPOLYLINE", "0", 1250, 2500, 0, 0, 1250, 2500, 625, 1250, false, 3125000, 4⟩).1
    (by decide)

/-- C9: the overall score always lies between 0 and 100: every term is
individually capped and the caps sum to exactly 100. -/
theorem c9_overall_score_bounds (g r : Classified) :
    0 ≤ (compare_classified g r).overall_score ∧
      (compare_classified g r).overall_score ≤ 100 := by
  obtain ⟨m, hm⟩ := compare_classified_overall g r
  rw [hm]
  dsimp only
  have h1 := score_has_slots_mem m
  have h2 := score_has_rybs_mem m
  have h3 := score_backplane_mem m
  have h4 := score_organic_mem m
  have h5 := score_tabs_mem m
  have h6 := score_ryb_count_mem m
  have h7 := score_slot_count_mem m
  constructor
  · exact round1_nonneg (by linarith [h1.1, h2.1, h3.1, h4.1, h5.1, h6.1, h7.1])
  · have := round1_le_of_le (q := score_has_slots m + score_has_rybs m + score_backplane m +
      score_organic m + score_tabs m + score_ryb_count m + score_slot_count m) (n := 100)
      (by push_cast; linarith [h1.2, h2.2, h3.2, h4.2, h5.2, h6.2, h7.2])
    simpa using this

/-- C10: when the reference classified set has zero parts, the 15-point
"parts with tabs" bonus is always awarded (the generated tabs count is at
least `min 0 10 = 0`); in particular comparing an empty drawing against an
empty reference scores 15, not 0. -/
theorem c10_tabs_bonus_zero_reference :
    (∀ g r : Classified, r.rybs.length = 0 → score_tabs (compare_classified g r) = 15) ∧
      (compare_dxfs [] []).overall_score = 15 := by
  constructor
  · intro g r hr
    have hrc : (compare_classified g r).ryb_count_reference = 0 := hr
    unfold score_tabs
    rw [hrc]
    simp
  · with_unfolding_all decide

/-- Witness for C10: the tabs bonus at a concrete pair with an empty
reference part list. -/
theorem c10_tabs_bonus_witness :
    score_tabs (compare_classified ⟨[], [], [], 0⟩ ⟨[], [], [], 0⟩) = 15 :=
  c10_tabs_bonus_zero_reference.1 ⟨[], [], [], 0⟩ ⟨[], [], [], 0⟩ rfl

/-- C8: comparing a drawing with zero primitives against any reference is
total and well defined: the empty side's classified set has all lists empty
and total 0, both overlap ratios and the size-distribution match
short-circuit to 0, the consistency flag is false, and the overall score is
the definite value 15 or 0 according to whether the reference part count is
zero. -/
theorem c8_zero_input_safety (ref_raw : List RawShape) :
    (classify_shapes (parse_shapes [])).sheets = [] ∧
    (classify_shapes (parse_shapes [])).rybs = [] ∧
    (classify_shapes (parse_shapes [])).slots = [] ∧
    (classify_shapes (parse_shapes [])).total = 0 ∧
    (compare_dxfs [] ref_raw).bounding_box_overlap_rybs = 0 ∧
    (compare_dxfs [] ref_raw).bounding_box_overlap_slots = 0 ∧
    (compare_dxfs [] ref_raw).size_distribution_match = 0 ∧
    (compare_dxfs [] ref_raw).slot_width_consistency = false ∧
    (compare_dxfs [] ref_raw).overall_score =
      (if (classify_shapes (parse_shapes ref_raw)).rybs.length = 0 then (15 : ℚ) else 0) := by
  refine ⟨rfl, rfl, rfl, rfl, rfl, rfl, rfl, rfl, ?_⟩
  show (compare_classified ⟨[], [], [], 0⟩ (classify_shapes (parse_shapes ref_raw))).overall_score
      = _
  set R := classify_shapes (parse_shapes ref_raw) with hR
  simp only [compare_classified, score_has_slots, score_has_rybs, score_backplane, score_organic,
    score_tabs, score_ryb_count, score_slot_count]
  dsimp only
  by_cases hrc : R.rybs.length = 0
  · rw [hrc]
    norm_num
    with_unfolding_all decide
  · rw [if_neg hrc]
    simp only [List.countP_nil, Nat.le_zero, Nat.min_eq_zero_iff, List.length_nil, Nat.zero_min,
      Nat.cast_zero, mul_zero, zero_div, hrc]
    norm_num [min_def]
    with_unfolding_all decide

/-!
### C4: bounding-box overlap
-/

/-- C4 counterexample: for two identical half-unit boxes the source returns
25.0 (the union area 1/4 is floored to 1), while the claimed standard IoU is
100.0. -/
theorem c4_overlap_counterexample :
    compute_bounding_box_overlap [dTiny] [dTiny] = 25 ∧
    claimIoU [dTiny] [dTiny] = 100 ∧
    compute_bounding_box_overlap [dTiny] [dTiny] ≠ claimIoU [dTiny] [dTiny] := by
  with_unfolding_all decide

/-- C4 amended: the overlap metric is the claim's formula with the union
area floored at 1 in the denominator; whenever the union area is at least 1
it coincides with the claimed standard IoU. -/
theorem c4_overlap_amended :
    (∀ a b : List Shape, compute_bounding_box_overlap a b = claimIoUFloored a b) ∧
    (∀ (a b : List Shape) (ax1 ay1 ax2 ay2 bx1 by1 bx2 by2 : ℚ),
      setBox a = some (ax1, ay1, ax2, ay2) → setBox b = some (bx1, by1, bx2, by2) →
      1 ≤ (ax2 - ax1) * (ay2 - ay1) + (bx2 - bx1) * (by2 - by1) -
        (min ax2 bx2 - max ax1 bx1) * (min ay2 by2 - max ay1 by1) →
      compute_bounding_box_overlap a b = claimIoU a b) := by
  constructor
  · intro a b
    match a, b with
    | [], _ => rfl
    | _ :: _, [] => rfl
    | a0 :: arest, b0 :: brest => rfl
  · intro a b ax1 ay1 ax2 ay2 bx1 by1 bx2 by2 ha hb hu
    match a, b with
    | [], _ => exact absurd ha (by simp [setBox])
    | _ :: _, [] => exact absurd hb (by simp [setBox])
    | a0 :: arest, b0 :: brest =>
      simp only [setBox, Option.some.injEq, Prod.mk.injEq] at ha hb
      obtain ⟨hax1, hay1, hax2, hay2⟩ := ha
      obtain ⟨hbx1, hby1, hbx2, hby2⟩ := hb
      subst hax1 hay1 hax2 hay2 hbx1 hby1 hbx2 hby2
      simp only [compute_bounding_box_overlap, claimIoU, setBox]
      split
      · rfl
      · rw [max_eq_left hu]

/-- Witness for C4 amended: a concrete pair with union area at least 1 where
the source metric equals the claimed standard IoU. -/
theorem c4_overlap_amended_witness :
    compute_bounding_box_overlap
        [⟨"LINE", "0", 10, 10, 0, 0, 10, 10, 5, 5, false, 100, 2⟩]
        [⟨"LINE", "0", 10, 10, 0, 0, 10, 10, 5, 5, false, 100, 2⟩] =
      claimIoU [⟨"LINE", "0", 10, 10, 0, 0, 10, 10, 5, 5, false, 100, 2⟩]
        [⟨"LINE", "0", 10, 10, 0, 0, 10, 10, 5, 5, false, 100, 2⟩] :=
  c4_overlap_amended.2 _ _ 0 0 10 10 0 0 10 10 rfl rfl (by with_unfolding_all decide)

/-!
### C5: size-distribution match
-/

/-- C5 counterexample: with part areas 460.2 (generated) and 441.1
(reference) the source buckets them to 500 and 400 and returns 0.0, while
the claimed floor-bucketing puts both in bucket 400 and returns 100.0. -/
theorem c5_size_dist_counterexample :
    (compare_classified (classify_shapes [c5gen])
      (classify_shapes [c5ref])).size_distribution_match = 0 ∧
    claimSizeDist (classify_shapes [c5gen]) (classify_shapes [c5ref]) = 100 ∧
    (compare_classified (classify_shapes [c5gen])
        (classify_shapes [c5ref])).size_distribution_match ≠
      claimSizeDist (classify_shapes [c5gen]) (classify_shapes [c5ref]) := by
  with_unfolding_all decide

/-- C5 amended: the size-distribution match is the Jaccard similarity of
the sets of part areas rounded to the nearest multiple of 100, as a
percentage rounded to 1 decimal (denominator floored at 1), 0 when either
side has no parts. -/
theorem c5_size_dist_amended (g r : Classified) :
    (compare_classified g r).size_distribution_match = amendedSizeDist g r := by
  have hmap : ∀ (l : List Shape) (f : Shape → ℚ), (l.map f).toFinset = l.toFinset.image f := by
    intro l f
    induction l with
    | nil => simp
    | cons a t ih => simp [ih]
  simp only [compare_classified, amendedSizeDist]
  rw [← hmap, ← hmap]
  by_cases hg : g.rybs = []
  · simp [hg]
  · by_cases hr : r.rybs = []
    · simp [hr]
    · rw [if_pos ⟨by simpa using hg, by simpa using hr⟩, if_neg (by simp [hg, hr])]

/-!
### C6: self-comparison
-/

/-- Comparing a descriptor list against itself yields 100.0 overlap provided
the enclosing box is non-degenerate with area at least 1. -/
theorem overlap_self_eq_100 (l : List Shape) (x1 y1 x2 y2 : ℚ)
    (h : setBox l = some (x1, y1, x2, y2)) (hx : x1 < x2) (hy : y1 < y2)
    (h1 : 1 ≤ (x2 - x1) * (y2 - y1)) :
    compute_bounding_box_overlap l l = 100 := by
  match l with
  | [] => exact absurd h (by simp [setBox])
  | s0 :: rest =>
    simp only [setBox, Option.some.injEq, Prod.mk.injEq] at h
    obtain ⟨h1x, h1y, h2x, h2y⟩ := h
    simp only [compute_bounding_box_overlap, max_self, min_self]
    rw [h1x, h1y, h2x, h2y]
    rw [if_neg (by push_neg; exact ⟨hx, hy⟩)]
    have harea : (0 : ℚ) < (x2 - x1) * (y2 - y1) := lt_of_lt_of_le one_pos h1
    have hsum : (x2 - x1) * (y2 - y1) + (x2 - x1) * (y2 - y1) - (x2 - x1) * (y2 - y1) =
        (x2 - x1) * (y2 - y1) := by ring
    rw [hsum, max_eq_left h1, div_self (ne_of_gt harea)]
    with_unfolding_all decide

/-- Self-comparison yields a 100.0 size-distribution match whenever the part
list is nonempty. -/
theorem size_dist_self_eq_100 (c : Classified) (h : c.rybs ≠ []) :
    (compare_classified c c).size_distribution_match = 100 := by
  have hs : (c.rybs.map fun s => roundHundred s.area) ≠ [] := by
    simpa using h
  simp only [compare_classified]
  rw [if_pos ⟨hs, hs⟩]
  rw [Finset.inter_self, Finset.union_self]
  have hpos : 0 < (c.rybs.map fun s => roundHundred s.area).toFinset.card := by
    rw [Finset.card_pos]
    obtain ⟨a, ha⟩ := List.exists_mem_of_ne_nil _ hs
    exact ⟨a, List.mem_toFinset.mpr ha⟩
  rw [max_eq_left hpos]
  have hne : (((c.rybs.map fun s => roundHundred s.area).toFinset.card : ℕ) : ℚ) ≠ 0 := by
    exact_mod_cast Nat.pos_iff_ne_zero.mp hpos
  rw [div_self hne]
  with_unfolding_all decide

/-- C6 counterexample: for the empty drawing, self-comparison returns 0.0
for both overlap ratios and the size-distribution match, refuting the
claimed unconditional 100.0 values. -/
theorem c6_self_compare_counterexample :
    ¬ ((compare_dxfs [] []).shape_count_match = true ∧
      (compare_dxfs [] []).ryb_count_match = true ∧
      (compare_dxfs [] []).slot_count_match = true ∧
      (compare_dxfs [] []).bounding_box_overlap_rybs = 100 ∧
      (compare_dxfs [] []).bounding_box_overlap_slots = 100 ∧
      (compare_dxfs [] []).size_distribution_match = 100) := by
  with_unfolding_all decide

/-- C6 amended: self-comparison always sets the three count-match flags;
each overlap ratio is 100.0 provided the corresponding category is nonempty
with a non-degenerate enclosing box of area at least 1, and the
size-distribution match is 100.0 provided the part list is nonempty. -/
theorem c6_self_compare_amended (raw : List RawShape) :
    (compare_dxfs raw raw).shape_count_match = true ∧
    (compare_dxfs raw raw).ryb_count_match = true ∧
    (compare_dxfs raw raw).slot_count_match = true ∧
    (∀ x1 y1 x2 y2 : ℚ,
      setBox (classify_shapes (parse_shapes raw)).rybs = some (x1, y1, x2, y2) →
      x1 < x2 → y1 < y2 → 1 ≤ (x2 - x1) * (y2 - y1) →
      (compare_dxfs raw raw).bounding_box_overlap_rybs = 100) ∧
    (∀ x1 y1 x2 y2 : ℚ,
      setBox (classify_shapes (parse_shapes raw)).slots = some (x1, y1, x2, y2) →
      x1 < x2 → y1 < y2 → 1 ≤ (x2 - x1) * (y2 - y1) →
      (compare_dxfs raw raw).bounding_box_overlap_slots = 100) ∧
    ((classify_shapes (parse_shapes raw)).rybs ≠ [] →
      (compare_dxfs raw raw).size_distribution_match = 100) := by
  refine ⟨by simp [compare_dxfs, compare_classified], by simp [compare_dxfs, compare_classified],
    by simp [compare_dxfs, compare_classified], ?_, ?_, ?_⟩
  · intro x1 y1 x2 y2 h hx hy h1
    exact overlap_self_eq_100 _ _ _ _ _ h hx hy h1
  · intro x1 y1 x2 y2 h hx hy h1
    exact overlap_self_eq_100 _ _ _ _ _ h hx hy h1
  · intro h
    exact size_dist_self_eq_100 _ h

/-- Witness for C6 amended at a concrete drawing with one part and one
slot. -/
theorem c6_self_compare_amended_witness :
    (compare_dxfs [c6sq, c6slot] [c6sq, c6slot]).bounding_box_overlap_rybs = 100 ∧
    (compare_dxfs [c6sq, c6slot] [c6sq, c6slot]).bounding_box_overlap_slots = 100 ∧
    (compare_dxfs [c6sq, c6slot] [c6sq, c6slot]).size_distribution_match = 100 :=
  ⟨(c6_self_compare_amended [c6sq, c6slot]).2.2.2.1 0 0 30 30
      (by with_unfolding_all decide) (by norm_num) (by norm_num) (by norm_num),
    (c6_self_compare_amended [c6sq, c6slot]).2.2.2.2.1 100 0 112 30
      (by with_unfolding_all decide) (by norm_num) (by norm_num) (by norm_num),
    (c6_self_compare_amended [c6sq, c6slot]).2.2.2.2.2
      (by with_unfolding_all decide)⟩

/-!
### C7: the composite type marker
-/

/-- C7 counterexample: two chained lines fuse into a single two-member
group whose descriptor `type` is the string "POLYLINE", not "composite". -/
theorem c7_type_marker_counterexample :
    (fuseGroups [c7line1, c7line2]).map List.length = [2] ∧
    (parse_shapes [c7line1, c7line2]).map Shape.type = ["POLYLINE"] ∧
    ("POLYLINE" : String) ≠ "composite" := by
  with_unfolding_all decide

/-- C7 amended: the descriptor of a fused group carries the marker value
"POLYLINE" when the group has more than one member, else the sole member's
own kind. -/
theorem c7_type_marker_amended (sub : List RawShape) (d : Shape)
    (h : buildDescriptor sub = some d) :
    d.type = if 1 < sub.length then "POLYLINE" else (sub.headD dummyShape).type := by
  match sub with
  | [] => exact absurd h (by simp [buildDescriptor])
  | s0 :: rest =>
    simp only [buildDescriptor] at h
    split at h
    · exact absurd h (by simp)
    · simp only [Option.some.injEq] at h
      subst h
      rfl

/-- Witness for C7 amended at a concrete one-member group. -/
theorem c7_type_marker_amended_witness :
    c7desc.type =
      if 1 < ([c7line1] : List RawShape).length then "POLYLINE"
      else ([c7line1].headD dummyShape).type :=
  c7_type_marker_amended [c7line1] c7desc (by with_unfolding_all decide)

/-!
### Reachability basics
-/

theorem isRoot_iterate {f : ℕ → ℕ} {r : ℕ} (h : IsRoot f r) (k : ℕ) : f^[k] r = r :=
  Function.iterate_fixed h k

theorem iterate_stable {f : ℕ → ℕ} {x r : ℕ} {k k' : ℕ} (hk : k ≤ k')
    (hx : f^[k] x = r) (hr : IsRoot f r) : f^[k'] x = r := by
  calc f^[k'] x = f^[k' - k + k] x := by rw [Nat.sub_add_cancel hk]
  _ = f^[k' - k] (f^[k] x) := Function.iterate_add_apply f _ _ x
  _ = f^[k' - k] r := by rw [hx]
  _ = r := isRoot_iterate hr _

theorem reaches_unique {f : ℕ → ℕ} {x r r' : ℕ} (h : Reaches f x r)
    (h' : Reaches f x r') : r = r' := by
  obtain ⟨hr, k, hk⟩ := h
  obtain ⟨hr', k', hk'⟩ := h'
  rcases le_total k k' with hle | hle
  · exact (iterate_stable hle hk hr).symm.trans hk'
  · exact hk.symm.trans (iterate_stable hle hk' hr')

theorem reaches_step {f : ℕ → ℕ} {x r : ℕ} (h : Reaches f (f x) r) : Reaches f x r := by
  obtain ⟨hr, k, hk⟩ := h
  exact ⟨hr, k + 1, by rw [Function.iterate_succ_apply]; exact hk⟩

theorem reaches_of_isRoot {f : ℕ → ℕ} {x : ℕ} (h : IsRoot f x) : Reaches f x x := ⟨h, 0, rfl⟩

theorem sameRoot_symm {f : ℕ → ℕ} {x y : ℕ} (h : sameRoot f x y) : sameRoot f y x := by
  obtain ⟨r, hx, hy⟩ := h
  exact ⟨r, hy, hx⟩

theorem sameRoot_trans {f : ℕ → ℕ} {x y z : ℕ} (h : sameRoot f x y) (h' : sameRoot f y z) :
    sameRoot f x z := by
  obtain ⟨r, hx, hy⟩ := h
  obtain ⟨r', hy', hz⟩ := h'
  rw [reaches_unique hy hy'] at hx
  exact ⟨r', hx, hz⟩

theorem bnd_tot {n : ℕ} {f : ℕ → ℕ} (h : Bnd n f) (a : ℕ) : ∃ r, Reaches f a r := by
  obtain ⟨k, -, hk⟩ := h a
  exact ⟨f^[k] a, hk, k, rfl⟩

theorem sameRoot_refl {n : ℕ} {f : ℕ → ℕ} (h : Bnd n f) (a : ℕ) : sameRoot f a a := by
  obtain ⟨r, hr⟩ := bnd_tot h a
  exact ⟨r, hr, hr⟩

theorem root_lt {n : ℕ} {f : ℕ → ℕ} (hDom : Dom n f) {x r : ℕ} (hx : x < n)
    (h : Reaches f x r) : r < n := by
  obtain ⟨hr, k, hk⟩ := h
  induction k generalizing x with
  | zero => exact hk ▸ hx
  | succ k ih =>
    by_cases hfx : f x = x
    · have : f^[k + 1] x = x := isRoot_iterate hfx (k + 1)
      rw [this] at hk
      exact hk ▸ hx
    · rw [Function.iterate_succ_apply] at hk
      exact ih (hDom x hfx).2 hk

theorem nf_card_le {n : ℕ} (f : ℕ → ℕ) : (NF n f).card ≤ n := by
  calc (NF n f).card ≤ (Finset.range n).card := Finset.card_filter_le _ _
  _ = n := Finset.card_range n

/-!
### Path compression: redirecting one node to its root
-/

theorem update_isRoot {g : ℕ → ℕ} {x r : ℕ} (hxr : x ≠ r) (hreach : Reaches g x r) (y : ℕ) :
    IsRoot (Function.update g x r) y ↔ IsRoot g y := by
  have hgx : g x ≠ x := by
    intro h
    exact hxr (reaches_unique (reaches_of_isRoot h) hreach)
  by_cases hy : y = x
  · subst hy
    unfold IsRoot
    rw [Function.update_same]
    constructor
    · intro h; exact absurd h.symm hxr
    · intro h; exact absurd h hgx
  · unfold IsRoot
    rw [Function.update_noteq hy]

theorem update_chain_le {g : ℕ → ℕ} {x r : ℕ} (_hxr : x ≠ r) (hreach : Reaches g x r) :
    ∀ (k : ℕ) (y : ℕ), IsRoot g (g^[k] y) →
      ∃ k' ≤ k, (Function.update g x r)^[k'] y = g^[k] y := by
  intro k
  induction k with
  | zero => intro y _; exact ⟨0, le_refl 0, rfl⟩
  | succ k ih =>
    intro y h
    by_cases hy : y = x
    · rw [hy] at h ⊢
      have hρ : g^[k + 1] x = r := reaches_unique ⟨h, k + 1, rfl⟩ hreach
      refine ⟨1, by omega, ?_⟩
      show Function.update g x r x = g^[k + 1] x
      rw [Function.update_same, hρ]
    · by_cases hgy : g y = y
      · have hfix : g^[k + 1] y = y := isRoot_iterate hgy (k + 1)
        exact ⟨0, Nat.zero_le _, by rw [hfix]; rfl⟩
      · have h' : IsRoot g (g^[k] (g y)) := by rwa [← Function.iterate_succ_apply]
        obtain ⟨k', hk', heq⟩ := ih (g y) h'
        refine ⟨k' + 1, by omega, ?_⟩
        rw [Function.iterate_succ_apply, Function.update_noteq hy, heq,
          ← Function.iterate_succ_apply]

theorem update_chain_back {g : ℕ → ℕ} {x r : ℕ} (hxr : x ≠ r) (hreach : Reaches g x r)
    {ρ : ℕ} :
    ∀ (k : ℕ) (y : ℕ), (Function.update g x r)^[k] y = ρ → ∃ m, g^[m] y = ρ := by
  intro k
  induction k with
  | zero => intro y hk; exact ⟨0, hk⟩
  | succ k ih =>
    intro y hk
    by_cases hy : y = x
    · rw [hy] at hk ⊢
      have hur : IsRoot (Function.update g x r) r :=
        (update_isRoot hxr hreach r).mpr hreach.1
      have hval : (Function.update g x r)^[k + 1] x = r := by
        rw [Function.iterate_succ_apply, Function.update_same]
        exact isRoot_iterate hur k
      rw [hval] at hk
      obtain ⟨m, hm⟩ := hreach.2
      exact ⟨m, by rw [hm, hk]⟩
    · rw [Function.iterate_succ_apply, Function.update_noteq hy] at hk
      obtain ⟨m, hm⟩ := ih (g y) hk
      exact ⟨m + 1, by rw [Function.iterate_succ_apply]; exact hm⟩

theorem update_reaches_iff {g : ℕ → ℕ} {x r : ℕ} (hxr : x ≠ r) (hreach : Reaches g x r)
    (y ρ : ℕ) : Reaches (Function.update g x r) y ρ ↔ Reaches g y ρ := by
  constructor
  · rintro ⟨hρ, k, hk⟩
    obtain ⟨m, hm⟩ := update_chain_back hxr hreach k y hk
    exact ⟨(update_isRoot hxr hreach ρ).mp hρ, m, hm⟩
  · rintro ⟨hρ, k, hk⟩
    obtain ⟨k', -, heq⟩ := update_chain_le hxr hreach k y (by rw [hk]; exact hρ)
    exact ⟨(update_isRoot hxr hreach ρ).mpr hρ, k', by rw [heq, hk]⟩

/-!
### Correctness of fuelled `find`
-/

theorem find_spec :
    ∀ (fuel : ℕ) (f : ℕ → ℕ) (i : ℕ), (∃ k, k < fuel ∧ IsRoot f (f^[k] i)) →
      Reaches f i (find fuel f i).2 ∧
      (∀ y, (find fuel f i).1 y = f y ∨ (find fuel f i).1 y = (find fuel f i).2) ∧
      (∀ y, IsRoot (find fuel f i).1 y ↔ IsRoot f y) ∧
      (∀ y ρ, Reaches (find fuel f i).1 y ρ ↔ Reaches f y ρ) ∧
      (∀ y k, IsRoot f (f^[k] y) →
        ∃ k' ≤ k, IsRoot (find fuel f i).1 ((find fuel f i).1^[k'] y)) := by
  intro fuel
  induction fuel with
  | zero =>
    intro f i h
    obtain ⟨k, hk, -⟩ := h
    omega
  | succ fuel ih =>
    intro f i h
    by_cases hfi : f i = i
    · have hfind : find (fuel + 1) f i = (f, i) := by simp [find, hfi]
      rw [hfind]
      exact ⟨⟨hfi, 0, rfl⟩, fun y => Or.inl rfl, fun y => Iff.rfl, fun y ρ => Iff.rfl,
        fun y k hk => ⟨k, le_refl k, hk⟩⟩
    · obtain ⟨k, hk, hroot⟩ := h
      have hk0 : k ≠ 0 := by rintro rfl; exact hfi hroot
      obtain ⟨k₀, rfl⟩ := Nat.exists_eq_succ_of_ne_zero hk0
      have hterm : ∃ k', k' < fuel ∧ IsRoot f (f^[k'] (f i)) :=
        ⟨k₀, by omega, by rwa [← Function.iterate_succ_apply]⟩
      obtain ⟨hre, hvals, hroots, hreach, hbound⟩ := ih f (f i) hterm
      have hfind : find (fuel + 1) f i =
          (Function.update (find fuel f (f i)).1 i (find fuel f (f i)).2,
            (find fuel f (f i)).2) := by
        simp [find, hfi]
      set f₀ := (find fuel f (f i)).1 with hf₀
      set r := (find fuel f (f i)).2 with hr
      rw [hfind]
      dsimp only
      have hri : Reaches f i r := reaches_step hre
      have hir : i ≠ r := by
        intro hh
        exact hfi (by rw [hh]; exact hri.1)
      have h₀ : Reaches f₀ i r := (hreach i r).mpr hri
      refine ⟨hri, ?_, ?_, ?_, ?_⟩
      · intro y
        by_cases hy : y = i
        · subst hy; right; rw [Function.update_same]
        · rw [Function.update_noteq hy]; exact hvals y
      · intro y
        exact (update_isRoot hir h₀ y).trans (hroots y)
      · intro y ρ
        exact (update_reaches_iff hir h₀ y ρ).trans (hreach y ρ)
      · intro y k hky
        obtain ⟨k', hk', hk'root⟩ := hbound y k hky
        obtain ⟨k₂, hk₂, heq⟩ := update_chain_le hir h₀ k' y hk'root
        refine ⟨k₂, by omega, ?_⟩
        rw [heq]
        exact (update_isRoot hir h₀ _).mpr hk'root

/-!
### Linking two roots
-/

theorem link_isRoot {g : ℕ → ℕ} {r₁ r₂ : ℕ} (h₁ : IsRoot g r₁) (_h₂ : IsRoot g r₂)
    (hne : r₁ ≠ r₂) (y : ℕ) :
    IsRoot (Function.update g r₁ r₂) y ↔ (IsRoot g y ∧ y ≠ r₁) := by
  by_cases hy : y = r₁
  · subst hy
    unfold IsRoot
    rw [Function.update_same]
    constructor
    · intro h; exact absurd h.symm hne
    · intro h; exact absurd rfl h.2
  · unfold IsRoot
    rw [Function.update_noteq hy]
    exact ⟨fun h => ⟨h, hy⟩, fun h => h.1⟩

theorem link_reaches {g : ℕ → ℕ} {r₁ r₂ : ℕ} (h₁ : IsRoot g r₁) (h₂ : IsRoot g r₂)
    (hne : r₁ ≠ r₂) (y ρ : ℕ) :
    Reaches (Function.update g r₁ r₂) y ρ ↔
      ((Reaches g y ρ ∧ ρ ≠ r₁) ∨ (Reaches g y r₁ ∧ ρ = r₂)) := by
  have hr₂' : IsRoot (Function.update g r₁ r₂) r₂ :=
    (link_isRoot h₁ h₂ hne r₂).mpr ⟨h₂, fun h => hne h.symm⟩
  constructor
  · rintro ⟨hρ, k, hk⟩
    have hρg : IsRoot g ρ ∧ ρ ≠ r₁ := (link_isRoot h₁ h₂ hne ρ).mp hρ
    -- transfer the chain back into g
    suffices hsuf : ∀ (k : ℕ) (y : ℕ), (Function.update g r₁ r₂)^[k] y = ρ →
        ((∃ m, g^[m] y = ρ) ∨ (Reaches g y r₁ ∧ ρ = r₂)) by
      rcases hsuf k y hk with hc | hc
      · obtain ⟨m, hm⟩ := hc
        exact Or.inl ⟨⟨hρg.1, m, hm⟩, hρg.2⟩
      · exact Or.inr hc
    intro k
    induction k with
    | zero => intro y hk; exact Or.inl ⟨0, hk⟩
    | succ k ih =>
      intro y hk
      by_cases hy : y = r₁
      · rw [hy] at hk ⊢
        rw [Function.iterate_succ_apply, Function.update_same] at hk
        rw [isRoot_iterate hr₂' k] at hk
        exact Or.inr ⟨reaches_of_isRoot h₁, hk.symm⟩
      · rw [Function.iterate_succ_apply, Function.update_noteq hy] at hk
        rcases ih (g y) hk with hc | hc
        · obtain ⟨m, hm⟩ := hc
          exact Or.inl ⟨m + 1, by rw [Function.iterate_succ_apply]; exact hm⟩
        · exact Or.inr ⟨reaches_step hc.1, hc.2⟩
  · rintro (⟨⟨hρ, k, hk⟩, hρne⟩ | ⟨⟨-, k, hk⟩, hρeq⟩)
    · refine ⟨(link_isRoot h₁ h₂ hne ρ).mpr ⟨hρ, hρne⟩, ?_⟩
      -- the g-chain avoids r₁ (whose g-value is itself), hence survives
      suffices hsuf : ∀ (k : ℕ) (y : ℕ), g^[k] y = ρ →
          ∃ m, (Function.update g r₁ r₂)^[m] y = ρ by
        exact hsuf k y hk
      intro k
      induction k with
      | zero => intro y hk; exact ⟨0, hk⟩
      | succ k ih =>
        intro y hk
        by_cases hgy : g y = y
        · rw [isRoot_iterate hgy (k + 1)] at hk
          exact ⟨0, hk⟩
        · have hy : y ≠ r₁ := by
            intro hh
            exact hgy (by rw [hh]; exact h₁)
          rw [Function.iterate_succ_apply] at hk
          obtain ⟨m, hm⟩ := ih (g y) hk
          refine ⟨m + 1, ?_⟩
          rw [Function.iterate_succ_apply, Function.update_noteq hy]
          exact hm
    · -- y reaches r₁ in g, so it reaches r₂ after the link
      rw [hρeq]
      refine ⟨hr₂', ?_⟩
      suffices hsuf : ∀ (k : ℕ) (y : ℕ), g^[k] y = r₁ →
          ∃ m, (Function.update g r₁ r₂)^[m] y = r₂ by
        exact hsuf k y hk
      intro k
      induction k with
      | zero =>
        intro y hk
        rw [Function.iterate_zero_apply] at hk
        rw [hk]
        exact ⟨1, by rw [Function.iterate_one, Function.update_same]⟩
      | succ k ih =>
        intro y hk
        by_cases hy : y = r₁
        · rw [hy]
          exact ⟨1, by rw [Function.iterate_one, Function.update_same]⟩
        · by_cases hgy : g y = y
          · rw [isRoot_iterate hgy (k + 1)] at hk
            exact absurd hk hy
          · rw [Function.iterate_succ_apply] at hk
            obtain ⟨m, hm⟩ := ih (g y) hk
            refine ⟨m + 1, ?_⟩
            rw [Function.iterate_succ_apply, Function.update_noteq hy]
            exact hm

theorem link_chain_le {g : ℕ → ℕ} {r₁ r₂ : ℕ} (h₁ : IsRoot g r₁) (h₂ : IsRoot g r₂)
    (hne : r₁ ≠ r₂) :
    ∀ (k : ℕ) (y : ℕ), IsRoot g (g^[k] y) →
      ∃ k' ≤ k + 1, IsRoot (Function.update g r₁ r₂) ((Function.update g r₁ r₂)^[k'] y) := by
  have hr₂' : IsRoot (Function.update g r₁ r₂) r₂ :=
    (link_isRoot h₁ h₂ hne r₂).mpr ⟨h₂, fun h => hne h.symm⟩
  intro k
  induction k with
  | zero =>
    intro y h
    by_cases hy : y = r₁
    · refine ⟨1, by omega, ?_⟩
      rw [hy, Function.iterate_one, Function.update_same]
      exact hr₂'
    · exact ⟨0, by omega, (link_isRoot h₁ h₂ hne y).mpr ⟨h, hy⟩⟩
  | succ k ih =>
    intro y h
    by_cases hgy : g y = y
    · by_cases hy : y = r₁
      · refine ⟨1, by omega, ?_⟩
        rw [hy, Function.iterate_one, Function.update_same]
        exact hr₂'
      · exact ⟨0, by omega, (link_isRoot h₁ h₂ hne y).mpr ⟨hgy, hy⟩⟩
    · have hy : y ≠ r₁ := by
        intro hh
        exact hgy (by rw [hh]; exact h₁)
      have h' : IsRoot g (g^[k] (g y)) := by rwa [← Function.iterate_succ_apply]
      obtain ⟨k', hk', hroot⟩ := ih (g y) h'
      refine ⟨k' + 1, by omega, ?_⟩
      rw [Function.iterate_succ_apply, Function.update_noteq hy]
      exact hroot

/-!
### Correctness of `union`
-/

theorem union_spec {n : ℕ} (fuel : ℕ) (f : ℕ → ℕ) (i j : ℕ)
    (hDom : Dom n f) (hBnd : Bnd n f) (hfuel : n < fuel) (hi : i < n) (hj : j < n) :
    Dom n (union fuel f i j) ∧ Bnd n (union fuel f i j) ∧
      (∀ a b, sameRoot (union fuel f i j) a b ↔
        (sameRoot f a b ∨ (sameRoot f a i ∧ sameRoot f b j) ∨
          (sameRoot f a j ∧ sameRoot f b i))) := by
  have hterm₁ : ∃ k, k < fuel ∧ IsRoot f (f^[k] i) := by
    obtain ⟨k, hk, hr⟩ := hBnd i
    exact ⟨k, lt_of_le_of_lt (hk.trans (nf_card_le f)) hfuel, hr⟩
  obtain ⟨hre₁, hvals₁, hroots₁, hreach₁, hbound₁⟩ := find_spec fuel f i hterm₁
  set f₁ := (find fuel f i).1 with hf₁
  set r₁ := (find fuel f i).2 with hr₁
  have hNF₁ : NF n f₁ = NF n f := by
    unfold NF
    apply Finset.filter_congr
    intro a _
    exact not_congr (hroots₁ a)
  have hDom₁ : Dom n f₁ := by
    intro a ha
    have hfa : f a ≠ a := fun h => ha ((hroots₁ a).mpr h)
    obtain ⟨h1, h2⟩ := hDom a hfa
    refine ⟨h1, ?_⟩
    rcases hvals₁ a with hv | hv
    · rw [hv]; exact h2
    · rw [hv]; exact root_lt hDom hi hre₁
  have hBnd₁ : Bnd n f₁ := by
    intro a
    obtain ⟨k, hk, hr⟩ := hBnd a
    obtain ⟨k', hk', hr'⟩ := hbound₁ a k hr
    exact ⟨k', by rw [hNF₁]; omega, hr'⟩
  have hterm₂ : ∃ k, k < fuel ∧ IsRoot f₁ (f₁^[k] j) := by
    obtain ⟨k, hk, hr⟩ := hBnd₁ j
    exact ⟨k, lt_of_le_of_lt (hk.trans (nf_card_le f₁)) hfuel, hr⟩
  obtain ⟨hre₂, hvals₂, hroots₂, hreach₂, hbound₂⟩ := find_spec fuel f₁ j hterm₂
  set f₂ := (find fuel f₁ j).1 with hf₂
  set r₂ := (find fuel f₁ j).2 with hr₂
  have hNF₂ : NF n f₂ = NF n f := by
    rw [← hNF₁]
    unfold NF
    apply Finset.filter_congr
    intro a _
    exact not_congr (hroots₂ a)
  have hDom₂ : Dom n f₂ := by
    intro a ha
    have hfa : f₁ a ≠ a := fun h => ha ((hroots₂ a).mpr h)
    obtain ⟨h1, h2⟩ := hDom₁ a hfa
    refine ⟨h1, ?_⟩
    rcases hvals₂ a with hv | hv
    · rw [hv]; exact h2
    · rw [hv]; exact root_lt hDom₁ hj hre₂
  have hBnd₂ : Bnd n f₂ := by
    intro a
    obtain ⟨k, hk, hr⟩ := hBnd₁ a
    obtain ⟨k', hk', hr'⟩ := hbound₂ a k hr
    refine ⟨k', ?_, hr'⟩
    rw [hNF₂]
    rw [hNF₁] at hk
    omega
  have hreach₁₂ : ∀ y ρ, Reaches f₂ y ρ ↔ Reaches f y ρ := fun y ρ =>
    (hreach₂ y ρ).trans (hreach₁ y ρ)
  have hsame₂ : ∀ a b, sameRoot f₂ a b ↔ sameRoot f a b := fun a b =>
    exists_congr fun r => and_congr (hreach₁₂ a r) (hreach₁₂ b r)
  have hfi_r₁ : Reaches f i r₁ := hre₁
  have hfj_r₂ : Reaches f j r₂ := (hreach₁ j r₂).mp hre₂
  have hr₁n : r₁ < n := root_lt hDom hi hre₁
  have hr₂n : r₂ < n := root_lt hDom₁ hj hre₂
  have hsri : ∀ a, sameRoot f a i ↔ Reaches f a r₁ := by
    intro a
    constructor
    · rintro ⟨r, har, hir⟩
      rwa [reaches_unique hir hfi_r₁] at har
    · intro h
      exact ⟨r₁, h, hfi_r₁⟩
  have hsrj : ∀ a, sameRoot f a j ↔ Reaches f a r₂ := by
    intro a
    constructor
    · rintro ⟨r, har, hjr⟩
      rwa [reaches_unique hjr hfj_r₂] at har
    · intro h
      exact ⟨r₂, h, hfj_r₂⟩
  have hunion : union fuel f i j = if r₁ = r₂ then f₂ else Function.update f₂ r₁ r₂ := rfl
  rw [hunion]
  by_cases hrr : r₁ = r₂
  · rw [if_pos hrr]
    refine ⟨hDom₂, hBnd₂, ?_⟩
    intro a b
    rw [hsame₂]
    constructor
    · exact Or.inl
    · rintro (h | ⟨ha, hb⟩ | ⟨ha, hb⟩)
      · exact h
      · rw [hsri] at ha
        rw [hsrj] at hb
        exact ⟨r₁, ha, by rw [hrr]; exact hb⟩
      · rw [hsrj] at ha
        rw [hsri] at hb
        exact ⟨r₂, ha, by rw [← hrr]; exact hb⟩
  · rw [if_neg hrr]
    have h₁f₂ : IsRoot f₂ r₁ := (hroots₂ r₁).mpr ((hroots₁ r₁).mpr hfi_r₁.1)
    have h₂f₂ : IsRoot f₂ r₂ := (hroots₂ r₂).mpr hre₂.1
    refine ⟨?_, ?_, ?_⟩
    · intro a ha
      by_cases har : a = r₁
      · rw [har] at ha ⊢
        exact ⟨hr₁n, by rw [Function.update_same]; exact hr₂n⟩
      · rw [Function.update_noteq har] at ha
        exact ⟨(hDom₂ a ha).1, by rw [Function.update_noteq har]; exact (hDom₂ a ha).2⟩
    · intro a
      obtain ⟨k, hk, hr⟩ := hBnd₂ a
      obtain ⟨k', hk', hr'⟩ := link_chain_le h₁f₂ h₂f₂ hrr k a hr
      refine ⟨k', ?_, hr'⟩
      have hNFg : NF n (Function.update f₂ r₁ r₂) = insert r₁ (NF n f₂) := by
        unfold NF
        ext x
        simp only [Finset.mem_filter, Finset.mem_range, Finset.mem_insert]
        constructor
        · rintro ⟨hx, hfx⟩
          by_cases hxr : x = r₁
          · exact Or.inl hxr
          · exact Or.inr ⟨hx, by rwa [Function.update_noteq hxr] at hfx⟩
        · rintro (rfl | ⟨hx, hfx⟩)
          · exact ⟨hr₁n, by rw [Function.update_same]; exact fun h => hrr h.symm⟩
          · have hxr : x ≠ r₁ := fun hh => hfx (by rw [hh]; exact h₁f₂)
            exact ⟨hx, by rw [Function.update_noteq hxr]; exact hfx⟩
      have hnotmem : r₁ ∉ NF n f₂ := by
        unfold NF
        simp only [Finset.mem_filter]
        rintro ⟨-, h⟩
        exact h h₁f₂
      rw [hNFg, Finset.card_insert_of_not_mem hnotmem]
      omega
    · intro a b
      constructor
      · rintro ⟨ρ, hρa, hρb⟩
        rw [link_reaches h₁f₂ h₂f₂ hrr] at hρa hρb
        rcases hρa with ⟨ha, hane⟩ | ⟨ha, haeq⟩ <;>
          rcases hρb with ⟨hb, hbne⟩ | ⟨hb, hbeq⟩
        · exact Or.inl ⟨ρ, (hreach₁₂ a ρ).mp ha, (hreach₁₂ b ρ).mp hb⟩
        · refine Or.inr (Or.inr ⟨?_, ?_⟩)
          · rw [hsrj]
            rw [hbeq] at ha
            exact (hreach₁₂ a r₂).mp ha
          · rw [hsri]
            exact (hreach₁₂ b r₁).mp hb
        · refine Or.inr (Or.inl ⟨?_, ?_⟩)
          · rw [hsri]
            exact (hreach₁₂ a r₁).mp ha
          · rw [hsrj]
            rw [haeq] at hb
            exact (hreach₁₂ b r₂).mp hb
        · exact Or.inl ⟨r₁, (hreach₁₂ a r₁).mp ha, (hreach₁₂ b r₁).mp hb⟩
      · rintro (⟨ρ, ha, hb⟩ | ⟨ha, hb⟩ | ⟨ha, hb⟩)
        · by_cases hρr : ρ = r₁
          · refine ⟨r₂, ?_, ?_⟩ <;> rw [link_reaches h₁f₂ h₂f₂ hrr]
            · exact Or.inr ⟨(hreach₁₂ a r₁).mpr (hρr ▸ ha), rfl⟩
            · exact Or.inr ⟨(hreach₁₂ b r₁).mpr (hρr ▸ hb), rfl⟩
          · refine ⟨ρ, ?_, ?_⟩ <;> rw [link_reaches h₁f₂ h₂f₂ hrr]
            · exact Or.inl ⟨(hreach₁₂ a ρ).mpr ha, hρr⟩
            · exact Or.inl ⟨(hreach₁₂ b ρ).mpr hb, hρr⟩
        · rw [hsri] at ha
          rw [hsrj] at hb
          refine ⟨r₂, ?_, ?_⟩ <;> rw [link_reaches h₁f₂ h₂f₂ hrr]
          · exact Or.inr ⟨(hreach₁₂ a r₁).mpr ha, rfl⟩
          · exact Or.inl ⟨(hreach₁₂ b r₂).mpr hb, fun h => hrr h.symm⟩
        · rw [hsrj] at ha
          rw [hsri] at hb
          refine ⟨r₂, ?_, ?_⟩ <;> rw [link_reaches h₁f₂ h₂f₂ hrr]
          · exact Or.inl ⟨(hreach₁₂ a r₂).mpr ha, fun h => hrr h.symm⟩
          · exact Or.inr ⟨(hreach₁₂ b r₁).mpr hb, rfl⟩

/-!
### Equivalence-closure utilities
-/

theorem eqvGen_congr {α : Type} {r q : α → α → Prop} (h : ∀ a b, r a b ↔ q a b) {a b : α} :
    Relation.EqvGen r a b ↔ Relation.EqvGen q a b :=
  ⟨Relation.EqvGen.mono fun x y => (h x y).mp, Relation.EqvGen.mono fun x y => (h x y).mpr⟩

theorem eqvGen_mono_eqvGen {α : Type} {r q : α → α → Prop}
    (h : ∀ a b, r a b → Relation.EqvGen q a b) {a b : α}
    (hab : Relation.EqvGen r a b) : Relation.EqvGen q a b := by
  induction hab with
  | rel x y hxy => exact h x y hxy
  | refl x => exact Relation.EqvGen.refl x
  | symm x y _ ih => exact Relation.EqvGen.symm x y ih
  | trans x y z _ _ ih₁ ih₂ => exact Relation.EqvGen.trans x y z ih₁ ih₂

theorem eqvGen_bot {α : Type} {r : α → α → Prop} (hr : ∀ a b, ¬ r a b) {a b : α}
    (h : Relation.EqvGen r a b) : a = b := by
  induction h with
  | rel x y hxy => exact absurd hxy (hr x y)
  | refl x => rfl
  | symm x y _ ih => exact ih.symm
  | trans x y z _ _ ih₁ ih₂ => exact ih₁.trans ih₂

/-!
### One `processKey` call joins `t` with the previous owner of the key
-/

theorem processKey_none (fuel : ℕ) (st : FuseState) (t : ℕ) (p : Pt)
    (h : st.point_map p = none) :
    (processKey fuel st t p).parent = st.parent ∧
    (processKey fuel st t p).point_map = Function.update st.point_map p (some t) := by
  unfold processKey
  rw [h]
  exact ⟨rfl, rfl⟩

theorem processKey_some (fuel : ℕ) (st : FuseState) (t : ℕ) (p : Pt) (o : ℕ)
    (h : st.point_map p = some o) :
    (processKey fuel st t p).parent = union fuel st.parent t o ∧
    (processKey fuel st t p).point_map = Function.update st.point_map p (some t) := by
  unfold processKey
  rw [h]
  exact ⟨rfl, rfl⟩

theorem key_union_char {n fuel : ℕ} {raw : List RawShape} {t : ℕ} (ht : t < n)
    (hfuel : n < fuel) (f : ℕ → ℕ) (pm : Pt → Option ℕ) (Q : ℕ → ℕ → Prop) (q : Pt)
    (hDom : Dom n f) (hBnd : Bnd n f)
    (hchar : ∀ x y, sameRoot f x y ↔ Relation.EqvGen Q x y)
    (howner : ∀ o, pm q = some o → o < n ∧ Relation.EqvGen (addKeyRel raw t q Q) t o)
    (hcover : ∀ y, y < t → q ∈ keysOf raw y → ∃ o, pm q = some o ∧ sameRoot f y o) :
    Dom n (processKey fuel ⟨f, pm⟩ t q).parent ∧
    Bnd n (processKey fuel ⟨f, pm⟩ t q).parent ∧
    (∀ x y, sameRoot (processKey fuel ⟨f, pm⟩ t q).parent x y ↔
      Relation.EqvGen (addKeyRel raw t q Q) x y) := by
  match hpm : pm q with
  | none =>
    obtain ⟨hpar, -⟩ := processKey_none fuel ⟨f, pm⟩ t q hpm
    rw [hpar]
    refine ⟨hDom, hBnd, ?_⟩
    intro x y
    constructor
    · intro h
      exact Relation.EqvGen.mono (fun a b => Or.inl) ((hchar x y).mp h)
    · intro h
      induction h with
      | rel a b hab =>
        rcases hab with hab | ⟨-, hb, hkb⟩ | ⟨-, ha, hka⟩
        · exact (hchar a b).mpr (Relation.EqvGen.rel a b hab)
        · obtain ⟨o, ho, -⟩ := hcover b hb hkb
          rw [hpm] at ho
          cases ho
        · obtain ⟨o, ho, -⟩ := hcover a ha hka
          rw [hpm] at ho
          cases ho
      | refl a => exact sameRoot_refl hBnd a
      | symm a b _ ih => exact sameRoot_symm ih
      | trans a b c _ _ ih₁ ih₂ => exact sameRoot_trans ih₁ ih₂
  | some o =>
    obtain ⟨hon, hto⟩ := howner o hpm
    obtain ⟨hpar, -⟩ := processKey_some fuel ⟨f, pm⟩ t q o hpm
    rw [hpar]
    obtain ⟨hDom', hBnd', hchar'⟩ := union_spec fuel f t o hDom hBnd hfuel ht hon
    refine ⟨hDom', hBnd', ?_⟩
    intro x y
    constructor
    · intro hxy
      rw [hchar' x y] at hxy
      rcases hxy with h | ⟨hxt, hyo⟩ | ⟨hxo, hyt⟩
      · exact Relation.EqvGen.mono (fun a b => Or.inl) ((hchar x y).mp h)
      · have h1 : Relation.EqvGen (addKeyRel raw t q Q) x t :=
          Relation.EqvGen.mono (fun a b => Or.inl) ((hchar x t).mp hxt)
        have h2 : Relation.EqvGen (addKeyRel raw t q Q) y o :=
          Relation.EqvGen.mono (fun a b => Or.inl) ((hchar y o).mp hyo)
        exact Relation.EqvGen.trans _ _ _ (Relation.EqvGen.trans _ _ _ h1 hto)
          (Relation.EqvGen.symm _ _ h2)
      · have h1 : Relation.EqvGen (addKeyRel raw t q Q) x o :=
          Relation.EqvGen.mono (fun a b => Or.inl) ((hchar x o).mp hxo)
        have h2 : Relation.EqvGen (addKeyRel raw t q Q) y t :=
          Relation.EqvGen.mono (fun a b => Or.inl) ((hchar y t).mp hyt)
        exact Relation.EqvGen.trans _ _ _ (Relation.EqvGen.trans _ _ _ h1
          (Relation.EqvGen.symm _ _ hto)) (Relation.EqvGen.symm _ _ h2)
    · intro h
      induction h with
      | rel a b hab =>
        rw [hchar' a b]
        rcases hab with hab | ⟨hat, hb, hkb⟩ | ⟨hbt, ha, hka⟩
        · exact Or.inl ((hchar a b).mpr (Relation.EqvGen.rel a b hab))
        · obtain ⟨o', ho', hbo'⟩ := hcover b hb hkb
          rw [hpm] at ho'
          injection ho' with ho'
          refine Or.inr (Or.inl ⟨?_, ?_⟩)
          · rw [hat]
            exact sameRoot_refl hBnd t
          · rw [ho']
            exact hbo'
        · obtain ⟨o', ho', hao'⟩ := hcover a ha hka
          rw [hpm] at ho'
          injection ho' with ho'
          refine Or.inr (Or.inr ⟨?_, ?_⟩)
          · rw [ho']
            exact hao'
          · rw [hbt]
            exact sameRoot_refl hBnd t
      | refl a => exact sameRoot_refl hBnd' a
      | symm a b _ ih => exact sameRoot_symm ih
      | trans a b c _ _ ih₁ ih₂ => exact sameRoot_trans ih₁ ih₂

/-!
### The per-primitive invariant step
-/

theorem shapeKeys_cases (s : RawShape) : shapeKeys s = [] ∨ ∃ a b, shapeKeys s = [a, b] := by
  cases hp : s.pts with
  | nil => exact Or.inl (by simp [shapeKeys, hp])
  | cons p rest =>
    refine Or.inr ⟨pt_key p.1 p.2,
      pt_key ((p :: rest).getLast (List.cons_ne_nil p rest)).1
        ((p :: rest).getLast (List.cons_ne_nil p rest)).2, ?_⟩
    simp [shapeKeys, hp]

theorem linkRelUpto_succ_of_empty {raw : List RawShape} {t : ℕ} (hk : keysOf raw t = [])
    (a b : ℕ) : linkRelUpto raw (t + 1) a b ↔ linkRelUpto raw t a b := by
  unfold linkRelUpto
  constructor
  · rintro ⟨ha, hb, p, hp1, hp2⟩
    have ha' : a ≠ t := by
      rintro rfl
      rw [hk] at hp1
      exact absurd hp1 (List.not_mem_nil p)
    have hb' : b ≠ t := by
      rintro rfl
      rw [hk] at hp2
      exact absurd hp2 (List.not_mem_nil p)
    exact ⟨by omega, by omega, p, hp1, hp2⟩
  · rintro ⟨ha, hb, hp⟩
    exact ⟨by omega, by omega, hp⟩

theorem fuseStep_inv (raw : List RawShape) (t : ℕ) (st : FuseState) (s : RawShape)
    (hs : raw.getD t dummyShape = s) (ht : t < raw.length) (hinv : FuseInv raw t st) :
    FuseInv raw (t + 1) (fuseStep (raw.length + 1) st t s) := by
  obtain ⟨f, pm⟩ := st
  obtain ⟨hDom, hBnd, hpmS, hpmN, hchar⟩ := hinv
  have hfuel : raw.length < raw.length + 1 := Nat.lt_succ_self _
  rcases shapeKeys_cases s with hk | ⟨q₁, q₂, hk⟩
  · have hkt : keysOf raw t = [] := by rw [keysOf, hs, hk]
    have hstep : fuseStep (raw.length + 1) ⟨f, pm⟩ t s = ⟨f, pm⟩ := by
      unfold fuseStep
      rw [hk]
    rw [hstep]
    refine ⟨hDom, hBnd, ?_, ?_, ?_⟩
    · intro p a hp
      obtain ⟨h1, h2⟩ := hpmS p a hp
      exact ⟨by omega, h2⟩
    · intro p hp a ha hmem
      by_cases hat : a = t
      · rw [hat, hkt] at hmem
        exact absurd hmem (List.not_mem_nil p)
      · exact hpmN p hp a (by omega) hmem
    · intro a b
      rw [hchar a b]
      exact eqvGen_congr fun x y => (linkRelUpto_succ_of_empty hkt x y).symm
  · have hkt : keysOf raw t = [q₁, q₂] := by rw [keysOf, hs, hk]
    have hstep : fuseStep (raw.length + 1) ⟨f, pm⟩ t s =
        processKey (raw.length + 1) (processKey (raw.length + 1) ⟨f, pm⟩ t q₁) t q₂ := by
      unfold fuseStep
      rw [hk]
      rfl
    rw [hstep]
    obtain ⟨hDom₁, hBnd₁, hchar₁⟩ :=
      key_union_char (n := raw.length) (t := t) ht hfuel
        f pm (linkRelUpto raw t) q₁ hDom hBnd hchar
        (by
          intro o ho
          obtain ⟨hlt, hmem⟩ := hpmS q₁ o ho
          exact ⟨by omega, Relation.EqvGen.rel _ _ (Or.inr (Or.inl ⟨rfl, hlt, hmem⟩))⟩)
        (by
          intro y hy hymem
          rcases hpm : pm q₁ with - | o
          · exact absurd hymem (hpmN q₁ hpm y hy)
          · obtain ⟨hlt, hmem⟩ := hpmS q₁ o hpm
            exact ⟨o, rfl, (hchar y o).mpr
              (Relation.EqvGen.rel _ _ ⟨hy, hlt, q₁, hymem, hmem⟩)⟩)
    have hpm₁ : (processKey (raw.length + 1) ⟨f, pm⟩ t q₁).point_map =
        Function.update pm q₁ (some t) := by
      rcases hpm : pm q₁ with - | o
      · exact (processKey_none _ _ _ _ hpm).2
      · exact (processKey_some _ _ _ _ _ hpm).2
    set st₁ := processKey (raw.length + 1) ⟨f, pm⟩ t q₁ with hst₁
    obtain ⟨hDom₂, hBnd₂, hchar₂⟩ :=
      key_union_char (n := raw.length) (t := t) ht hfuel
        st₁.parent st₁.point_map (addKeyRel raw t q₁ (linkRelUpto raw t)) q₂ hDom₁ hBnd₁ hchar₁
        (by
          intro o ho
          rw [hpm₁] at ho
          by_cases hq : q₂ = q₁
          · rw [hq, Function.update_same] at ho
            injection ho with ho
            refine ⟨by omega, ?_⟩
            rw [← ho]
            exact Relation.EqvGen.refl t
          · rw [Function.update_noteq hq] at ho
            obtain ⟨hlt, hmem⟩ := hpmS q₂ o ho
            exact ⟨by omega, Relation.EqvGen.rel _ _ (Or.inr (Or.inl ⟨rfl, hlt, hmem⟩))⟩)
        (by
          intro y hy hymem
          by_cases hq : q₂ = q₁
          · refine ⟨t, by rw [hpm₁, hq, Function.update_same], ?_⟩
            apply (hchar₁ y t).mpr
            have hlink : addKeyRel raw t q₁ (linkRelUpto raw t) t y :=
              Or.inr (Or.inl ⟨rfl, hy, by rw [← hq]; exact hymem⟩)
            exact Relation.EqvGen.symm _ _ (Relation.EqvGen.rel _ _ hlink)
          · rcases hpm : pm q₂ with - | o
            · exact absurd hymem (hpmN q₂ hpm y hy)
            · obtain ⟨hlt, hmem⟩ := hpmS q₂ o hpm
              refine ⟨o, by rw [hpm₁, Function.update_noteq hq]; exact hpm, ?_⟩
              apply (hchar₁ y o).mpr
              exact Relation.EqvGen.mono (fun a b => Or.inl)
                (Relation.EqvGen.rel _ _ ⟨hy, hlt, q₂, hymem, hmem⟩))
    have hpm₂ : (processKey (raw.length + 1) st₁ t q₂).point_map =
        Function.update st₁.point_map q₂ (some t) := by
      rcases hpm : st₁.point_map q₂ with - | o
      · exact (processKey_none _ _ _ _ hpm).2
      · exact (processKey_some _ _ _ _ _ hpm).2
    refine ⟨hDom₂, hBnd₂, ?_, ?_, ?_⟩
    · intro p a hp
      rw [hpm₂] at hp
      by_cases hp₂ : p = q₂
      · rw [hp₂, Function.update_same] at hp
        injection hp with hp
        refine ⟨by omega, ?_⟩
        rw [← hp, hp₂, hkt]
        simp
      · rw [Function.update_noteq hp₂, hpm₁] at hp
        by_cases hp₁ : p = q₁
        · rw [hp₁, Function.update_same] at hp
          injection hp with hp
          refine ⟨by omega, ?_⟩
          rw [← hp, hp₁, hkt]
          simp
        · rw [Function.update_noteq hp₁] at hp
          obtain ⟨h1, h2⟩ := hpmS p a hp
          exact ⟨by omega, h2⟩
    · intro p hp a ha hmem
      rw [hpm₂] at hp
      by_cases hp₂ : p = q₂
      · rw [hp₂, Function.update_same] at hp
        cases hp
      · rw [Function.update_noteq hp₂, hpm₁] at hp
        by_cases hp₁ : p = q₁
        · rw [hp₁, Function.update_same] at hp
          cases hp
        · rw [Function.update_noteq hp₁] at hp
          by_cases hat : a = t
          · rw [hat, hkt] at hmem
            simp only [List.mem_cons, List.not_mem_nil, or_false] at hmem
            rcases hmem with rfl | rfl
            · exact hp₁ rfl
            · exact hp₂ rfl
          · exact hpmN p hp a (by omega) hmem
    · intro a b
      rw [hchar₂ a b]
      constructor
      · apply eqvGen_mono_eqvGen
        intro x y hxy
        apply Relation.EqvGen.rel
        rcases hxy with hxy | ⟨hxt, hylt, hkmem⟩ | ⟨hyt, hxlt, hkmem⟩
        · rcases hxy with hxy | ⟨hxt, hylt, hkmem⟩ | ⟨hyt, hxlt, hkmem⟩
          · obtain ⟨hx, hy, hsh⟩ := hxy
            exact ⟨by omega, by omega, hsh⟩
          · refine ⟨by omega, by omega, q₁, ?_, hkmem⟩
            rw [hxt, hkt]
            simp
          · refine ⟨by omega, by omega, q₁, hkmem, ?_⟩
            rw [hyt, hkt]
            simp
        · refine ⟨by omega, by omega, q₂, ?_, hkmem⟩
          rw [hxt, hkt]
          simp
        · refine ⟨by omega, by omega, q₂, hkmem, ?_⟩
          rw [hyt, hkt]
          simp
      · apply eqvGen_mono_eqvGen
        intro x y hxy
        obtain ⟨hx, hy, p, hpx, hpy⟩ := hxy
        by_cases hxt : x = t
        · by_cases hyt : y = t
          · rw [hxt, hyt]
            exact Relation.EqvGen.refl t
          · have hy' : y < t := by omega
            rw [hxt, hkt] at hpx
            rw [hxt]
            simp only [List.mem_cons, List.not_mem_nil, or_false] at hpx
            rcases hpx with rfl | rfl
            · exact Relation.EqvGen.rel _ _
                (Or.inl (Or.inr (Or.inl ⟨rfl, hy', hpy⟩)))
            · exact Relation.EqvGen.rel _ _
                (Or.inr (Or.inl ⟨rfl, hy', hpy⟩))
        · by_cases hyt : y = t
          · have hx' : x < t := by omega
            rw [hyt, hkt] at hpy
            rw [hyt]
            simp only [List.mem_cons, List.not_mem_nil, or_false] at hpy
            rcases hpy with rfl | rfl
            · exact Relation.EqvGen.rel _ _
                (Or.inl (Or.inr (Or.inr ⟨rfl, hx', hpx⟩)))
            · exact Relation.EqvGen.rel _ _
                (Or.inr (Or.inr ⟨rfl, hx', hpx⟩))
          · exact Relation.EqvGen.rel _ _
              (Or.inl (Or.inl ⟨by omega, by omega, p, hpx, hpy⟩))

/-!
### The whole fusion loop
-/

theorem iterate_id_nat : ∀ (k x : ℕ), (initState.parent)^[k] x = x := by
  intro k
  induction k with
  | zero => intro x; rfl
  | succ k ih => intro x; rw [Function.iterate_succ_apply]; exact ih x

theorem fuseInv_init (raw : List RawShape) : FuseInv raw 0 initState := by
  refine ⟨?_, ?_, ?_, ?_, ?_⟩
  · intro a ha
    exact absurd rfl ha
  · intro a
    exact ⟨0, Nat.zero_le _, rfl⟩
  · intro p a h
    exact absurd h (by simp [initState])
  · intro p _ a ha
    exact absurd ha (Nat.not_lt_zero a)
  · intro a b
    constructor
    · rintro ⟨r, ⟨-, k, hk⟩, ⟨-, k', hk'⟩⟩
      rw [iterate_id_nat k a] at hk
      rw [iterate_id_nat k' b] at hk'
      have hab : a = b := hk.trans hk'.symm
      rw [hab]
      exact Relation.EqvGen.refl b
    · intro h
      have hab : a = b := eqvGen_bot (fun x y hxy => absurd hxy.1 (Nat.not_lt_zero x)) h
      rw [hab]
      exact ⟨b, ⟨rfl, 0, rfl⟩, ⟨rfl, 0, rfl⟩⟩

theorem getD_of_drop {α : Type} {l : List α} {t : ℕ} {s : α} {rest : List α} (d : α)
    (h : l.drop t = s :: rest) : l.getD t d = s := by
  induction l generalizing t with
  | nil => rw [List.drop_nil] at h; cases h
  | cons x xs ih =>
    cases t with
    | zero =>
      rw [List.drop_zero] at h
      injection h with h1 h2
    | succ t =>
      exact ih h

theorem drop_cons_succ {α : Type} {l : List α} {t : ℕ} {s : α} {rest : List α}
    (h : l.drop t = s :: rest) : l.drop (t + 1) = rest := by
  induction l generalizing t with
  | nil => rw [List.drop_nil] at h; cases h
  | cons x xs ih =>
    cases t with
    | zero =>
      rw [List.drop_zero] at h
      injection h with h1 h2
    | succ t =>
      exact ih h

theorem lt_of_drop_cons {α : Type} {l : List α} {t : ℕ} {s : α} {rest : List α}
    (h : l.drop t = s :: rest) : t < l.length := by
  have := List.length_drop t l
  rw [h] at this
  simp only [List.length_cons] at this
  omega

theorem fuseAux_inv (raw : List RawShape) :
    ∀ (suffix : List RawShape) (t : ℕ) (st : FuseState),
      raw.drop t = suffix → FuseInv raw t st →
      FuseInv raw (t + suffix.length) (fuseAux (raw.length + 1) st t suffix) := by
  intro suffix
  induction suffix with
  | nil =>
    intro t st _ hinv
    simpa using hinv
  | cons s rest ih =>
    intro t st hdrop hinv
    have ht : t < raw.length := lt_of_drop_cons hdrop
    have hget : raw.getD t dummyShape = s := getD_of_drop dummyShape hdrop
    have hdrop' : raw.drop (t + 1) = rest := drop_cons_succ hdrop
    have hstep := fuseStep_inv raw t st s hget ht hinv
    have hrec := ih (t + 1) _ hdrop' hstep
    have harith : t + (s :: rest).length = (t + 1) + rest.length := by
      simp only [List.length_cons]
      omega
    rw [harith]
    exact hrec

theorem fuseState_inv (raw : List RawShape) : FuseInv raw raw.length (fuseState raw) := by
  have h := fuseAux_inv raw raw 0 initState (by rw [List.drop_zero]) (fuseInv_init raw)
  simpa using h

/-!
### The grouping loop
-/

theorem find_preserves {n : ℕ} (fuel : ℕ) (f : ℕ → ℕ) (i : ℕ)
    (hDom : Dom n f) (hBnd : Bnd n f) (hfuel : n < fuel) (hi : i < n) :
    Dom n (find fuel f i).1 ∧ Bnd n (find fuel f i).1 ∧
    (∀ y ρ, Reaches (find fuel f i).1 y ρ ↔ Reaches f y ρ) ∧
    Reaches f i (find fuel f i).2 := by
  have hterm : ∃ k, k < fuel ∧ IsRoot f (f^[k] i) := by
    obtain ⟨k, hk, hr⟩ := hBnd i
    exact ⟨k, lt_of_le_of_lt (hk.trans (nf_card_le f)) hfuel, hr⟩
  obtain ⟨hre, hvals, hroots, hreach, hbound⟩ := find_spec fuel f i hterm
  have hNF : NF n (find fuel f i).1 = NF n f := by
    unfold NF
    apply Finset.filter_congr
    intro a _
    exact not_congr (hroots a)
  refine ⟨?_, ?_, hreach, hre⟩
  · intro a ha
    have hfa : f a ≠ a := fun h => ha ((hroots a).mpr h)
    obtain ⟨h1, h2⟩ := hDom a hfa
    refine ⟨h1, ?_⟩
    rcases hvals a with hv | hv
    · rw [hv]; exact h2
    · rw [hv]; exact root_lt hDom hi hre
  · intro a
    obtain ⟨k, hk, hr⟩ := hBnd a
    obtain ⟨k', hk', hr'⟩ := hbound a k hr
    exact ⟨k', by rw [hNF]; omega, hr'⟩

theorem addToGroup_keys {acc : List (ℕ × List ℕ)} {r i : ℕ} :
    ∀ x ∈ (addToGroup acc r i).map Prod.fst, x ∈ acc.map Prod.fst ∨ x = r := by
  induction acc with
  | nil =>
    intro x hx
    simp [addToGroup] at hx
    exact Or.inr hx
  | cons pr rest ih =>
    intro x hx
    obtain ⟨k, l⟩ := pr
    rw [show addToGroup ((k, l) :: rest) r i =
        if k = r then (k, l ++ [i]) :: rest else (k, l) :: addToGroup rest r i from rfl] at hx
    by_cases hkr : k = r
    · rw [if_pos hkr] at hx
      simp only [List.map_cons, List.mem_cons] at hx ⊢
      exact Or.inl hx
    · rw [if_neg hkr] at hx
      simp only [List.map_cons, List.mem_cons] at hx
      rcases hx with hx | hx
      · exact Or.inl (by simp only [List.map_cons, List.mem_cons]; exact Or.inl hx)
      · rcases ih x hx with h | h
        · exact Or.inl (by simp only [List.map_cons, List.mem_cons]; exact Or.inr h)
        · exact Or.inr h

theorem addToGroup_spec (f0 : ℕ → ℕ) (i r : ℕ) (hroot : Reaches f0 i r) :
    ∀ (acc : List (ℕ × List ℕ)),
      (∀ pr ∈ acc, ∀ j, j ∈ pr.2 ↔ (j < i ∧ Reaches f0 j pr.1)) →
      (∀ j, j < i → Reaches f0 j r → ∃ pr ∈ acc, j ∈ pr.2) →
      ((acc.map Prod.fst).Nodup) →
      (∀ pr ∈ addToGroup acc r i, ∀ j, j ∈ pr.2 ↔ (j < i + 1 ∧ Reaches f0 j pr.1)) ∧
      (∀ j (pr₀ : ℕ × List ℕ), pr₀ ∈ acc → j ∈ pr₀.2 → ∃ pr ∈ addToGroup acc r i, j ∈ pr.2) ∧
      (∃ pr ∈ addToGroup acc r i, i ∈ pr.2) ∧
      (((addToGroup acc r i).map Prod.fst).Nodup) := by
  intro acc
  induction acc with
  | nil =>
    intro hspec hcovR _
    refine ⟨?_, ?_, ?_, ?_⟩
    · intro pr hpr j
      simp only [addToGroup, List.mem_singleton] at hpr
      rw [hpr]
      simp only [List.mem_singleton]
      constructor
      · rintro rfl
        exact ⟨by omega, hroot⟩
      · rintro ⟨hj, hjr⟩
        rcases Nat.lt_succ_iff_lt_or_eq.mp hj with hj' | hj'
        · obtain ⟨pr', hpr', -⟩ := hcovR j hj' hjr
          exact absurd hpr' (List.not_mem_nil pr')
        · exact hj'
    · intro j pr₀ hpr₀
      exact absurd hpr₀ (List.not_mem_nil pr₀)
    · exact ⟨(r, [i]), by simp [addToGroup], by simp⟩
    · simp [addToGroup]
  | cons hd rest ih =>
    intro hspec hcovR hnodup
    obtain ⟨k, l⟩ := hd
    have hspec_hd := hspec (k, l) (List.mem_cons_self _ _)
    have hspec_rest : ∀ pr ∈ rest, ∀ j, j ∈ pr.2 ↔ (j < i ∧ Reaches f0 j pr.1) :=
      fun pr hpr => hspec pr (List.mem_cons_of_mem _ hpr)
    have hnodup_rest : (rest.map Prod.fst).Nodup := by
      simp only [List.map_cons, List.nodup_cons] at hnodup
      exact hnodup.2
    have hknotin : k ∉ rest.map Prod.fst := by
      simp only [List.map_cons, List.nodup_cons] at hnodup
      exact hnodup.1
    rw [show addToGroup ((k, l) :: rest) r i =
        if k = r then (k, l ++ [i]) :: rest else (k, l) :: addToGroup rest r i from rfl]
    by_cases hkr : k = r
    · rw [if_pos hkr]
      subst hkr
      refine ⟨?_, ?_, ?_, ?_⟩
      · intro pr hpr j
        rcases List.mem_cons.mp hpr with hpr' | hpr'
        · rw [hpr']
          simp only [List.mem_append, List.mem_singleton]
          constructor
          · rintro (hj | rfl)
            · obtain ⟨h1, h2⟩ := (hspec_hd j).mp hj
              exact ⟨by omega, h2⟩
            · exact ⟨by omega, hroot⟩
          · rintro ⟨hj, hjr⟩
            rcases Nat.lt_succ_iff_lt_or_eq.mp hj with hj' | hj'
            · exact Or.inl ((hspec_hd j).mpr ⟨hj', hjr⟩)
            · exact Or.inr hj'
        · constructor
          · intro hj
            obtain ⟨h1, h2⟩ := (hspec_rest pr hpr' j).mp hj
            exact ⟨by omega, h2⟩
          · rintro ⟨hj, hjr⟩
            rcases Nat.lt_succ_iff_lt_or_eq.mp hj with hj' | hj'
            · exact (hspec_rest pr hpr' j).mpr ⟨hj', hjr⟩
            · rw [hj'] at hjr
              have hpk : pr.1 = k := reaches_unique hjr hroot
              have : pr.1 ∈ rest.map Prod.fst := List.mem_map_of_mem Prod.fst hpr'
              rw [hpk] at this
              exact absurd this hknotin
      · intro j pr₀ hpr₀ hjin
        rcases List.mem_cons.mp hpr₀ with hpr' | hpr'
        · refine ⟨(k, l ++ [i]), List.mem_cons_self _ _, ?_⟩
          rw [hpr'] at hjin
          simp only [List.mem_append]
          exact Or.inl hjin
        · exact ⟨pr₀, List.mem_cons_of_mem _ hpr', hjin⟩
      · exact ⟨(k, l ++ [i]), List.mem_cons_self _ _, by simp⟩
      · simpa using hnodup
    · rw [if_neg hkr]
      have hcovR_rest : ∀ j, j < i → Reaches f0 j r → ∃ pr ∈ rest, j ∈ pr.2 := by
        intro j hj hjr
        obtain ⟨pr, hpr, hjin⟩ := hcovR j hj hjr
        rcases List.mem_cons.mp hpr with hpr' | hpr'
        · rw [hpr'] at hjin
          have hjk : Reaches f0 j k := ((hspec_hd j).mp hjin).2
          exact absurd (reaches_unique hjk hjr) hkr
        · exact ⟨pr, hpr', hjin⟩
      obtain ⟨ihA, ihB, ihC, ihD⟩ := ih hspec_rest hcovR_rest hnodup_rest
      refine ⟨?_, ?_, ?_, ?_⟩
      · intro pr hpr j
        rcases List.mem_cons.mp hpr with hpr' | hpr'
        · rw [hpr']
          constructor
          · intro hj
            obtain ⟨h1, h2⟩ := (hspec_hd j).mp hj
            exact ⟨by omega, h2⟩
          · rintro ⟨hj, hjr⟩
            rcases Nat.lt_succ_iff_lt_or_eq.mp hj with hj' | hj'
            · exact (hspec_hd j).mpr ⟨hj', hjr⟩
            · rw [hj'] at hjr
              exact absurd (reaches_unique hroot hjr).symm hkr
        · exact ihA pr hpr' j
      · intro j pr₀ hpr₀ hjin
        rcases List.mem_cons.mp hpr₀ with hpr' | hpr'
        · refine ⟨(k, l), List.mem_cons_self _ _, ?_⟩
          rw [hpr'] at hjin
          exact hjin
        · obtain ⟨pr, hpr, hj⟩ := ihB j pr₀ hpr' hjin
          exact ⟨pr, List.mem_cons_of_mem _ hpr, hj⟩
      · obtain ⟨pr, hpr, hi⟩ := ihC
        exact ⟨pr, List.mem_cons_of_mem _ hpr, hi⟩
      · simp only [List.map_cons, List.nodup_cons]
        refine ⟨?_, ihD⟩
        intro hk
        rcases addToGroup_keys k hk with h | h
        · exact hknotin h
        · exact hkr h

theorem groupAux_spec {n : ℕ} (fuel : ℕ) (f0 : ℕ → ℕ) (hfuel : n < fuel) :
    ∀ (k i : ℕ) (f : ℕ → ℕ) (acc : List (ℕ × List ℕ)),
      i + k ≤ n →
      Dom n f → Bnd n f →
      (∀ y ρ, Reaches f y ρ ↔ Reaches f0 y ρ) →
      (∀ pr ∈ acc, ∀ j, j ∈ pr.2 ↔ (j < i ∧ Reaches f0 j pr.1)) →
      (∀ j, j < i → ∃ pr ∈ acc, j ∈ pr.2) →
      ((acc.map Prod.fst).Nodup) →
      (∀ pr ∈ (groupAux fuel f acc i k).2, ∀ j,
        j ∈ pr.2 ↔ (j < i + k ∧ Reaches f0 j pr.1)) ∧
      (∀ j, j < i + k → ∃ pr ∈ (groupAux fuel f acc i k).2, j ∈ pr.2) := by
  intro k
  induction k with
  | zero =>
    intro i f acc _ _ _ _ hspec hcov _
    constructor
    · intro pr hpr j
      have h := hspec pr hpr j
      simpa using h
    · intro j hj
      exact hcov j (by omega)
  | succ k ih =>
    intro i f acc hik hDom hBnd hRiff hspec hcov hnodup
    have hi : i < n := by omega
    obtain ⟨hDom', hBnd', hRiff', hfir⟩ := find_preserves fuel f i hDom hBnd hfuel hi
    have hfir0 : Reaches f0 i (find fuel f i).2 := (hRiff i _).mp hfir
    have hcovR : ∀ j, j < i → Reaches f0 j (find fuel f i).2 → ∃ pr ∈ acc, j ∈ pr.2 :=
      fun j hj _ => hcov j hj
    obtain ⟨hA, hB, hC, hD⟩ :=
      addToGroup_spec f0 i (find fuel f i).2 hfir0 acc hspec hcovR hnodup
    have hRiff2 : ∀ y ρ, Reaches (find fuel f i).1 y ρ ↔ Reaches f0 y ρ :=
      fun y ρ => (hRiff' y ρ).trans (hRiff y ρ)
    have hcov' : ∀ j, j < i + 1 → ∃ pr ∈ addToGroup acc (find fuel f i).2 i, j ∈ pr.2 := by
      intro j hj
      rcases Nat.lt_succ_iff_lt_or_eq.mp hj with hj' | hj'
      · obtain ⟨pr, hpr, hjin⟩ := hcov j hj'
        exact hB j pr hpr hjin
      · rw [hj']
        exact hC
    have hrec := ih (i + 1) (find fuel f i).1 (addToGroup acc (find fuel f i).2 i)
      (by omega) hDom' hBnd' hRiff2 hA hcov' hD
    constructor
    · intro pr hpr j
      have harith : i + (k + 1) = (i + 1) + k := by omega
      rw [harith]
      exact hrec.1 pr hpr j
    · intro j hj
      exact hrec.2 j (by omega)

theorem sameGroup_char (raw : List RawShape) (a b : ℕ) :
    sameGroup raw a b ↔
      (a < raw.length ∧ b < raw.length ∧ sameRoot (fuseState raw).parent a b) := by
  obtain ⟨hDom, hBnd, -, -, -⟩ := fuseState_inv raw
  have hfuel : raw.length < raw.length + 1 := Nat.lt_succ_self _
  obtain ⟨hA, hB⟩ := groupAux_spec (n := raw.length) (raw.length + 1) (fuseState raw).parent
    hfuel raw.length 0 (fuseState raw).parent [] (by omega) hDom hBnd (fun y ρ => Iff.rfl)
    (fun pr hpr => absurd hpr (List.not_mem_nil pr))
    (by intro j hj; omega)
    (by simp)
  unfold sameGroup fuseGroups
  constructor
  · rintro ⟨g, hg, hag, hbg⟩
    obtain ⟨pr, hpr, hgeq⟩ := List.mem_map.mp hg
    rw [← hgeq] at hag hbg
    obtain ⟨ha1, ha2⟩ := (hA pr hpr a).mp hag
    obtain ⟨hb1, hb2⟩ := (hA pr hpr b).mp hbg
    exact ⟨by omega, by omega, pr.1, ha2, hb2⟩
  · rintro ⟨han, hbn, ρ, hra, hrb⟩
    obtain ⟨pr, hpr, hain⟩ := hB a (by omega)
    have ha2 : Reaches (fuseState raw).parent a pr.1 := ((hA pr hpr a).mp hain).2
    have hρ : pr.1 = ρ := reaches_unique ha2 hra
    have hbin : b ∈ pr.2 := (hA pr hpr b).mpr ⟨by omega, by rw [hρ]; exact hrb⟩
    exact ⟨pr.2, List.mem_map_of_mem Prod.snd hpr, hain, hbin⟩

theorem sameGroup_iff_eqvGen (raw : List RawShape) (a b : ℕ) :
    sameGroup raw a b ↔
      (a < raw.length ∧ b < raw.length ∧ Relation.EqvGen (linkRel raw) a b) := by
  obtain ⟨-, -, -, -, hchar⟩ := fuseState_inv raw
  rw [sameGroup_char]
  constructor
  · rintro ⟨ha, hb, hsr⟩
    exact ⟨ha, hb, (hchar a b).mp hsr⟩
  · rintro ⟨ha, hb, he⟩
    exact ⟨ha, hb, (hchar a b).mpr he⟩

/-!
### Permutation invariance of the partition
-/

theorem eqvGen_map {α β : Type} (m : α → β) {r : α → α → Prop} {q : β → β → Prop}
    (h : ∀ a b, r a b → q (m a) (m b)) {a b : α} (hab : Relation.EqvGen r a b) :
    Relation.EqvGen q (m a) (m b) := by
  induction hab with
  | rel x y hxy => exact Relation.EqvGen.rel _ _ (h x y hxy)
  | refl x => exact Relation.EqvGen.refl (m x)
  | symm x y _ ih => exact Relation.EqvGen.symm _ _ ih
  | trans x y z _ _ ih₁ ih₂ => exact Relation.EqvGen.trans _ _ _ ih₁ ih₂

theorem extendPerm_lt {n : ℕ} (σ : Equiv.Perm (Fin n)) (a : ℕ) :
    extendPerm n σ a < n ↔ a < n := by
  unfold extendPerm
  by_cases h : a < n
  · rw [dif_pos h]
    exact iff_of_true (σ ⟨a, h⟩).isLt h
  · rw [dif_neg h]

theorem extendPerm_symm_apply {n : ℕ} (σ : Equiv.Perm (Fin n)) (x : ℕ) :
    extendPerm n σ (extendPerm n σ.symm x) = x := by
  unfold extendPerm
  by_cases h : x < n
  · rw [dif_pos h]
    have hlt : ((σ.symm ⟨x, h⟩ : Fin n) : ℕ) < n := (σ.symm ⟨x, h⟩).isLt
    rw [dif_pos hlt]
    simp
  · rw [dif_neg h, dif_neg h]

theorem extendPerm_apply_symm {n : ℕ} (σ : Equiv.Perm (Fin n)) (x : ℕ) :
    extendPerm n σ.symm (extendPerm n σ x) = x := by
  have h := extendPerm_symm_apply (σ := σ.symm) x
  rwa [Equiv.symm_symm] at h

theorem length_permute (raw : List RawShape) (σ : Equiv.Perm (Fin raw.length)) :
    (permuteList raw σ).length = raw.length := List.length_ofFn _

theorem getD_permute (raw : List RawShape) (σ : Equiv.Perm (Fin raw.length)) (k : ℕ) :
    (permuteList raw σ).getD k dummyShape =
      raw.getD (extendPerm raw.length σ k) dummyShape := by
  unfold permuteList extendPerm
  by_cases h : k < raw.length
  · rw [dif_pos h]
    have h1 : k < (List.ofFn fun j => raw.get (σ j)).length := by
      rw [List.length_ofFn]; exact h
    have h2 : ((σ ⟨k, h⟩ : Fin raw.length) : ℕ) < raw.length := (σ ⟨k, h⟩).isLt
    rw [List.getD_eq_getElem?_getD, List.getElem?_eq_getElem h1,
      List.getD_eq_getElem?_getD, List.getElem?_eq_getElem h2]
    simp [List.get_eq_getElem]
  · rw [dif_neg h]
    have h1 : (List.ofFn fun j => raw.get (σ j)).length ≤ k := by
      rw [List.length_ofFn]; omega
    have h2 : raw.length ≤ k := by omega
    rw [List.getD_eq_getElem?_getD, List.getElem?_eq_none h1,
      List.getD_eq_getElem?_getD, List.getElem?_eq_none h2]

theorem keysOf_permute (raw : List RawShape) (σ : Equiv.Perm (Fin raw.length)) (k : ℕ) :
    keysOf (permuteList raw σ) k = keysOf raw (extendPerm raw.length σ k) := by
  unfold keysOf
  rw [getD_permute]

theorem linkRel_permute (raw : List RawShape) (σ : Equiv.Perm (Fin raw.length)) (a b : ℕ) :
    linkRel (permuteList raw σ) a b ↔
      linkRel raw (extendPerm raw.length σ a) (extendPerm raw.length σ b) := by
  unfold linkRel linkRelUpto
  rw [length_permute, keysOf_permute, keysOf_permute]
  rw [← extendPerm_lt σ a, ← extendPerm_lt σ b]

theorem eqvGen_linkRel_permute (raw : List RawShape) (σ : Equiv.Perm (Fin raw.length))
    (a b : ℕ) :
    Relation.EqvGen (linkRel (permuteList raw σ)) a b ↔
      Relation.EqvGen (linkRel raw) (extendPerm raw.length σ a)
        (extendPerm raw.length σ b) := by
  constructor
  · exact eqvGen_map (extendPerm raw.length σ)
      (fun x y hxy => (linkRel_permute raw σ x y).mp hxy)
  · intro h
    have h2 := eqvGen_map (extendPerm raw.length σ.symm)
      (q := linkRel (permuteList raw σ))
      (fun x y hxy => by
        rw [linkRel_permute raw σ]
        rw [extendPerm_symm_apply, extendPerm_symm_apply]
        exact hxy) h
    rwa [extendPerm_apply_symm, extendPerm_apply_symm] at h2

theorem sameGroup_permute (raw : List RawShape) (σ : Equiv.Perm (Fin raw.length)) (a b : ℕ) :
    sameGroup (permuteList raw σ) a b ↔
      sameGroup raw (extendPerm raw.length σ a) (extendPerm raw.length σ b) := by
  rw [sameGroup_iff_eqvGen, sameGroup_iff_eqvGen, length_permute]
  rw [← extendPerm_lt σ a, ← extendPerm_lt σ b, eqvGen_linkRel_permute]

theorem componentShapes_permute (raw : List RawShape) (σ : Equiv.Perm (Fin raw.length))
    (a : ℕ) :
    componentShapes (permuteList raw σ) a =
      componentShapes raw (extendPerm raw.length σ a) := by
  unfold componentShapes
  ext s
  simp only [Set.mem_setOf_eq]
  constructor
  · rintro ⟨j, hg, hs⟩
    refine ⟨extendPerm raw.length σ j, (sameGroup_permute raw σ a j).mp hg, ?_⟩
    rw [hs, getD_permute]
  · rintro ⟨j, hg, hs⟩
    refine ⟨extendPerm raw.length σ.symm j, ?_, ?_⟩
    · rw [sameGroup_permute, extendPerm_symm_apply]
      exact hg
    · rw [hs, getD_permute, extendPerm_symm_apply]

theorem partitionShapes_permute (raw : List RawShape) (σ : Equiv.Perm (Fin raw.length)) :
    partitionShapes (permuteList raw σ) = partitionShapes raw := by
  unfold partitionShapes
  ext S
  simp only [Set.mem_setOf_eq]
  constructor
  · rintro ⟨a, ha, hS⟩
    rw [length_permute] at ha
    refine ⟨extendPerm raw.length σ a, (extendPerm_lt σ a).mpr ha, ?_⟩
    rw [hS, componentShapes_permute]
  · rintro ⟨a, ha, hS⟩
    refine ⟨extendPerm raw.length σ.symm a, ?_, ?_⟩
    · rw [length_permute, extendPerm_lt]
      exact ha
    · rw [hS, componentShapes_permute, extendPerm_symm_apply]

/-!
### C2
-/

/-- C2: the fuser's output partition is exactly the set of connected
components of the shared-quantized-endpoint relation: two primitives are in
the same fused group iff a chain of shared-endpoint links connects them; a
primitive linked to no other forms a singleton group; and the partition, as
a set of sets of primitives, is invariant under every permutation of the
input order. -/
theorem c2_fusion_partition (raw : List RawShape) :
    (∀ a b, a < raw.length → b < raw.length →
      (sameGroup raw a b ↔ Relation.EqvGen (linkRel raw) a b)) ∧
    (∀ a, a < raw.length → (∀ b, b ≠ a → ¬ linkRel raw a b) → groupSet raw a = {a}) ∧
    (∀ σ : Equiv.Perm (Fin raw.length),
      partitionShapes (permuteList raw σ) = partitionShapes raw) := by
  refine ⟨?_, ?_, partitionShapes_permute raw⟩
  · intro a b ha hb
    rw [sameGroup_iff_eqvGen]
    constructor
    · rintro ⟨-, -, h⟩
      exact h
    · intro h
      exact ⟨ha, hb, h⟩
  · intro a ha hiso
    have hsym : ∀ b, b ≠ a → ¬ linkRel raw b a := by
      intro b hb hlink
      obtain ⟨h1, h2, p, hp1, hp2⟩ := hlink
      exact hiso b hb ⟨h2, h1, p, hp2, hp1⟩
    have key : ∀ x y, Relation.EqvGen (linkRel raw) x y → ((x = a → y = a) ∧ (y = a → x = a)) := by
      intro x y h
      induction h with
      | rel u v huv =>
        constructor
        · rintro rfl
          by_contra hne
          exact hiso v hne huv
        · rintro rfl
          by_contra hne
          exact hsym u hne huv
      | refl u => exact ⟨id, id⟩
      | symm u v _ ih => exact ⟨ih.2, ih.1⟩
      | trans u v w _ _ ih₁ ih₂ => exact ⟨fun h => ih₂.1 (ih₁.1 h), fun h => ih₁.2 (ih₂.2 h)⟩
    ext j
    simp only [groupSet, Set.mem_setOf_eq, Set.mem_singleton_iff]
    constructor
    · intro hg
      obtain ⟨-, -, he⟩ := (sameGroup_iff_eqvGen raw a j).mp hg
      exact (key a j he).1 rfl
    · intro hj
      rw [hj]
      exact (sameGroup_iff_eqvGen raw a a).mpr ⟨ha, ha, Relation.EqvGen.refl a⟩

/-- Witness for C2 at a concrete input: an unlinked primitive forms a
singleton group. -/
theorem c2_fusion_partition_witness : groupSet [c2a, c2b] 0 = {0} :=
  (c2_fusion_partition [c2a, c2b]).2.1 0 (by norm_num)
    (by
      rintro b hb ⟨h0, hblt, p, hp1, hp2⟩
      simp only [List.length_cons, List.length_nil] at hblt
      interval_cases b
      · exact hb rfl
      · have hkeys : keysOf [c2a, c2b] 0 = [pt_key 0 0, pt_key 10 0] := by
          with_unfolding_all decide
        rw [hkeys] at hp1
        simp only [List.mem_cons, List.not_mem_nil, or_false] at hp1
        rcases hp1 with rfl | rfl
        · revert hp2
          with_unfolding_all decide
        · revert hp2
          with_unfolding_all decide)

end CompareDxf
